import Mathlib

/-!
Verification of the topology-tracking server in `SW/server/center.py`.

The Python module maintains a module-level dictionary `graph` mapping a
canonical node pair to the most recent edge record, fed by a UDP receiver
(`receiver_thread` / `parse_packet`), pruned by `cleaner_thread`, and queried
through `build_adjacency_list`, `dijkstra` and `bfs`.

The embedding below mirrors the source:
* Python `dict` values are association lists (`List (κ × ν)`) with insertion
  order preserved: assignment to an existing key replaces the value in place,
  assignment to a fresh key appends at the end, deletion removes the entry.
  This matches CPython's ordered-dict semantics used by the source.
* JSON numbers used as timestamps are modelled as `Int`; `rssi` values as
  `Int`; routing weights (`abs(rssi)`) as `Nat`.
* A decoded datagram (after `json.loads` succeeded and produced an object
  whose `"edges"` member is an object) is a `Packet`: the optional `sender`
  string and the ordered list of key/value pairs of the `"edges"` object.
* `float('inf')` distances are modelled by `Option Nat` with `none` = ∞.
* The `heapq` priority queue is a list popped at its minimum under the
  lexicographic order on `(distance, node)` that Python tuple comparison uses.
-/

namespace Center

/-- An edge record as carried in a packet's `"edges"` object and stored in
`graph`: the `rssi` member may be absent (`build_adjacency_list` defaults it
to `-100`), the `timestamp` member is always read by `receiver_thread`. -/
structure EdgeData where
  rssi : Option Int
  timestamp : Int
  deriving DecidableEq, Repr

/-- A canonical edge key: an ordered pair of node-id strings. -/
abbrev EdgeKey := String × String

/-- The `graph` dictionary: insertion-ordered association list. -/
abbrev Store := List (EdgeKey × EdgeData)

/-- Python's `<=` on strings: lexicographic comparison of the code-point
sequences. -/
def charListLe : List Char → List Char → Bool
  | [], _ => true
  | _ :: _, [] => false
  | a :: as, b :: bs =>
      if a.toNat < b.toNat then true
      else if b.toNat < a.toNat then false
      else charListLe as bs

/-- Python's `<=` on strings, on `String`. -/
def strLe (a b : String) : Bool := charListLe a.toList b.toList

/-- `get_canonical_edge(node1, node2)`: `tuple(sorted((node1, node2)))`.
Python's `sorted` on a two-tuple of strings is the stable sort by the
lexicographic code-point order. -/
def get_canonical_edge (node1 node2 : String) : EdgeKey :=
  if strLe node1 node2 then (node1, node2) else (node2, node1)

/-- Python dict assignment `m[k] = v`: replace in place if the key is
present, append otherwise. -/
def dictSet (m : List (EdgeKey × EdgeData)) (k : EdgeKey) (v : EdgeData) :
    List (EdgeKey × EdgeData) :=
  match m with
  | [] => [(k, v)]
  | (k', v') :: rest =>
      if k' = k then (k, v) :: rest else (k', v') :: dictSet rest k v

/-- Python dict lookup `m.get(k)` / `k in m`. -/
def dictGet (m : List (EdgeKey × EdgeData)) (k : EdgeKey) : Option EdgeData :=
  match m with
  | [] => none
  | (k', v') :: rest => if k' = k then some v' else dictGet rest k

/-- A decoded datagram: the result of `json.loads` on a payload that is an
object whose `"edges"` member (defaulted to `{}`) is an object.  `sender` is
`data.get("sender")`; `edges` is the insertion-ordered list of the `"edges"`
object's entries.  Payloads that fail `json.loads`, or whose `"edges"` member
is not an object, make `parse_packet` return `(None, None)` and are skipped;
they never reach the store and are not modelled further. -/
structure Packet where
  sender : Option String
  edges : List (String × EdgeData)

/-- Python's `k_str.split(',')`: maximal (possibly empty) runs of characters
between commas; `''.split(',') == ['']`. -/
def splitComma (s : String) : List String :=
  (s.toList.splitOn ',').map List.asString

/-- One iteration of the edge-collecting loop of `parse_packet`: split the
key on `','`; keep the pair under its canonical key iff the split has
exactly two tokens (`len(nodes) == 2`), overwriting an earlier entry with
the same canonical key; otherwise leave the accumulator unchanged. -/
def parseStep (acc : List (EdgeKey × EdgeData)) (kv : String × EdgeData) :
    List (EdgeKey × EdgeData) :=
  match splitComma kv.1 with
  | [a, b] => dictSet acc (get_canonical_edge a b) kv.2
  | _ => acc

/-- The edge-collecting loop of `parse_packet` over all entries of the
`"edges"` object. -/
def parseEdges (l : List (String × EdgeData)) : List (EdgeKey × EdgeData) :=
  l.foldl parseStep []

/-- `parse_packet` on a decoded datagram: returns the sender and the
canonicalized edge dictionary. -/
def parse_packet (p : Packet) : Option String × List (EdgeKey × EdgeData) :=
  (p.sender, parseEdges p.edges)

/-- One merge step of `receiver_thread`:
`if edge not in graph or data['timestamp'] > graph[edge]['timestamp']:
graph[edge] = data`. -/
def upsert (g : Store) (edge : EdgeKey) (data : EdgeData) : Store :=
  match dictGet g edge with
  | none => dictSet g edge data
  | some old => if data.timestamp > old.timestamp then dictSet g edge data else g

/-- Python truthiness of the sender id: `if not sender_id: continue` skips
both a missing `sender` member and an empty string. -/
def senderOk : Option String → Bool
  | none => false
  | some s => !(s = "")

/-- The body of `receiver_thread` for one decoded datagram: skip it when the
sender is falsy, otherwise merge every parsed edge into the store in order. -/
def processPacket (g : Store) (p : Packet) : Store :=
  let parsed := parse_packet p
  if senderOk parsed.1 then parsed.2.foldl (fun acc kv => upsert acc kv.1 kv.2) g
  else g

/-- The per-entry test of `cleaner_thread`: `now - data['timestamp'] > EDGE_TIMEOUT`. -/
def isExpired (now ttl : Int) (d : EdgeData) : Bool :=
  now - d.timestamp > ttl

/-- One sweep of `cleaner_thread` with the given `now` and ttl: collect the
expired keys, delete them, report how many were deleted.  Deleting a batch of
keys from an insertion-ordered dict leaves the surviving entries in order,
i.e. it filters the association list. -/
def sweep_expired (g : Store) (now ttl : Int) : Store × Nat :=
  (g.filter (fun kv => !isExpired now ttl kv.2),
   (g.filter (fun kv => isExpired now ttl kv.2)).length)

/-! ### Adjacency construction (`build_adjacency_list`) -/

/-- The adjacency dictionary: node ↦ ordered list of `(neighbor, weight)`. -/
abbrev Adj := List (String × List (String × Nat))

/-- Lookup of a node's neighbor list; `[]` when the node is absent
(`adj.get(node, [])`). -/
def adjGet (adj : Adj) (u : String) : List (String × Nat) :=
  match adj with
  | [] => []
  | (k, l) :: rest => if k = u then l else adjGet rest u

/-- `node in adj`. -/
def adjHas (adj : Adj) (u : String) : Bool :=
  match adj with
  | [] => false
  | (k, _) :: rest => k = u || adjHas rest u

/-- `if u not in adj: adj[u] = []`. -/
def adjEnsure (adj : Adj) (u : String) : Adj :=
  if adjHas adj u then adj else adj ++ [(u, [])]

/-- `adj[u].append(p)` — the node is always present when the source runs
this (it was just ensured); on an absent key the Python code would raise,
which never happens, so the embedding leaves the dictionary unchanged there. -/
def adjAppend (adj : Adj) (u : String) (p : String × Nat) : Adj :=
  match adj with
  | [] => []
  | (k, l) :: rest =>
      if k = u then (k, l ++ [p]) :: rest else (k, l) :: adjAppend rest u p

/-- The routing weight of a record: `abs(data.get('rssi', -100))`. -/
def weightOf (d : EdgeData) : Nat := (d.rssi.getD (-100)).natAbs

/-- `build_adjacency_list()` applied to a snapshot of `graph`: for every
stored edge, ensure both endpoints exist and append both directions. -/
def build_adjacency_list (g : Store) : Adj :=
  g.foldl
    (fun adj kv =>
      let u := kv.1.1
      let v := kv.1.2
      let adj := adjEnsure (adjEnsure adj u) v
      let w := weightOf kv.2
      adjAppend (adjAppend adj u (v, w)) v (u, w))
    []

/-- The node ids present in an adjacency dictionary, in insertion order. -/
def adjKeys (adj : Adj) : List String := adj.map (·.1)

/-! ### Dijkstra (`dijkstra`) -/

/-- Mutable state of the Dijkstra loop.  `dist x = none` models the initial
`float('inf')`; `pq` is the content of the `heapq` heap as a multiset. -/
structure DState where
  dist : String → Option Nat
  prev : String → Option String
  pq : List (Nat × String)

/-- Python tuple order `(d₁, n₁) <= (d₂, n₂)` used by `heapq` on the
`(distance, node)` pairs. -/
def entryLe (a b : Nat × String) : Bool :=
  a.1 < b.1 || (a.1 = b.1 && strLe a.2 b.2)

/-- The minimum entry of the (nonempty) heap. -/
def minEntry (e : Nat × String) (rest : List (Nat × String)) : Nat × String :=
  rest.foldl (fun m x => if entryLe m x then m else x) e

/-- `heapq.heappop`: return the least entry and the heap without one
occurrence of it. -/
def popMin (e : Nat × String) (rest : List (Nat × String)) :
    (Nat × String) × List (Nat × String) :=
  let m := minEntry e rest
  (m, (e :: rest).erase m)

/-- `current_distance > distances[current_node]` (a finite value never
exceeds infinity). -/
def gtD (d : Nat) (o : Option Nat) : Bool :=
  match o with
  | none => false
  | some du => du < d

/-- `distance < distances[neighbor]` (every finite value is below infinity). -/
def ltD (d : Nat) (o : Option Nat) : Bool :=
  match o with
  | none => true
  | some dv => d < dv

/-- One relaxation: `distance = current_distance + weight;
if distance < distances[neighbor]: ...` with `vw` the `(neighbor, weight)`
pair taken from the popped node's adjacency list. -/
def relaxOne (u : String) (d : Nat) (s : DState) (vw : String × Nat) : DState :=
  let v := vw.1
  let nd := d + vw.2
  if ltD nd (s.dist v) then
    { dist := fun x => if x = v then some nd else s.dist x
      prev := fun x => if x = v then some u else s.prev x
      pq := s.pq ++ [(nd, v)] }
  else s

/-- The `for neighbor, weight in adj.get(current_node, [])` loop. -/
def relaxAll (adj : Adj) (u : String) (d : Nat) (s : DState) : DState :=
  (adjGet adj u).foldl (relaxOne u d) s

/-- The `while pq:` loop of `dijkstra`, with explicit fuel.  The fuel used by
`dijkstra` is proved sufficient, so the `0` branch is never taken there. -/
def dloop (adj : Adj) (endNode : String) : Nat → DState → DState
  | 0, s => s
  | fuel + 1, s =>
      match s.pq with
      | [] => s
      | e :: rest =>
          let pm := popMin e rest
          let s' : DState := { s with pq := pm.2 }
          if gtD pm.1.1 (s.dist pm.1.2) then dloop adj endNode fuel s'
          else if pm.1.2 = endNode then s'
          else dloop adj endNode fuel (relaxAll adj pm.1.2 pm.1.1 s')

/-- Total weight of the adjacency dictionary; every distance the loop ever
assigns is the cost of a duplicate-free walk and hence bounded by this. -/
def totalW (adj : Adj) : Nat :=
  (adj.map (fun e => (e.2.map (·.2)).sum)).sum

/-- Distance capped for the termination potential. -/
def capD (b : Nat) : Option Nat → Nat
  | none => b + 1
  | some d => min d (b + 1)

/-- Termination potential of a loop state: every iteration strictly
decreases it. -/
def potential (adj : Adj) (s : DState) : Nat :=
  s.pq.length + (totalW adj + 1) * ((adjKeys adj).map (fun v => capD (totalW adj) (s.dist v))).sum

/-- `distances = {node: inf for node in adj}; distances[start] = 0;
previous_nodes = {node: None for node in adj}; pq = [(0, start)]`. -/
def initState (start : String) : DState :=
  { dist := fun x => if x = start then some 0 else none
    prev := fun _ => none
    pq := [(0, start)] }

/-- The path-reconstruction loop `while current is not None:
path.insert(0, current); current = previous_nodes[current]`, with fuel; the
fuel used by `dijkstra` is proved sufficient. -/
def buildPath (prev : String → Option String) : Nat → Option String → List String → List String
  | _, none, acc => acc
  | 0, some _, acc => acc
  | fuel + 1, some c, acc => buildPath prev fuel (prev c) (c :: acc)

/-- `dijkstra(start_node, end_node)` over a snapshot `g` of `graph`.
The pair models the Python return value: `(some p, some c)` for
`(path, cost)` and `(none, none)` for `(None, float('inf'))`. -/
def dijkstra (g : Store) (startNode endNode : String) :
    Option (List String) × Option Nat :=
  let adj := build_adjacency_list g
  if adjHas adj startNode && adjHas adj endNode then
    let s := dloop adj endNode (potential adj (initState startNode) + 1) (initState startNode)
    let path := buildPath s.prev ((adjKeys adj).length + 1) (some endNode) []
    if path.head? = some startNode then (some path, s.dist endNode) else (none, none)
  else (none, none)

/-! ### BFS (`bfs`) -/

/-- Mutable state of the BFS loop: the `visited` set (membership only — its
list order is irrelevant), the `deque`, and `reachable_nodes`. -/
structure BState where
  visited : List String
  queue : List String
  out : List String

/-- One neighbor inspection: `if neighbor not in visited: visited.add(...);
queue.append(...)`. -/
def bvisit (t : BState) (vw : String × Nat) : BState :=
  if t.visited.contains vw.1 then t
  else { t with visited := vw.1 :: t.visited, queue := t.queue ++ [vw.1] }

/-- The `while queue:` loop of `bfs`, with fuel proved sufficient at the
call site. -/
def bloop (adj : Adj) : Nat → BState → BState
  | 0, s => s
  | fuel + 1, s =>
      match s.queue with
      | [] => s
      | n :: rest =>
          bloop adj fuel
            ((adjGet adj n).foldl bvisit { s with queue := rest, out := s.out ++ [n] })

/-- `bfs(start_node)` over a snapshot `g` of `graph`. -/
def bfs (g : Store) (startNode : String) : List String :=
  let adj := build_adjacency_list g
  if adjHas adj startNode then
    (bloop adj (2 * (adjKeys adj).length + 1)
      { visited := [startNode], queue := [startNode], out := [] }).out
  else []

/-! ### Association-list dictionary lemmas -/

/-- The store keys are pairwise distinct — true of every Python dict, hence
of `graph` and of every snapshot of it. -/
def NodupKeys (g : Store) : Prop := (g.map Prod.fst).Nodup

theorem dictGet_dictSet_self (m : Store) (k : EdgeKey) (v : EdgeData) :
    dictGet (dictSet m k v) k = some v := by
  induction m with
  | nil => simp [dictSet, dictGet]
  | cons kv rest ih =>
      by_cases h : kv.1 = k
      · simp [dictSet, dictGet, h]
      · simpa [dictSet, dictGet, h] using ih

theorem dictGet_dictSet_ne (m : Store) (k k' : EdgeKey) (v : EdgeData)
    (h : k' ≠ k) : dictGet (dictSet m k v) k' = dictGet m k' := by
  induction m with
  | nil => simp [dictSet, dictGet, Ne.symm h]
  | cons kv rest ih =>
      by_cases hk : kv.1 = k
      · subst hk
        simp [dictSet, dictGet, Ne.symm h]
      · by_cases hk' : kv.1 = k'
        · simp [dictSet, dictGet, hk, hk', h]
        · simpa [dictSet, dictGet, hk, hk'] using ih

theorem dictGet_eq_none_iff (m : Store) (k : EdgeKey) :
    dictGet m k = none ↔ k ∉ m.map Prod.fst := by
  induction m with
  | nil => simp [dictGet]
  | cons kv rest ih =>
      by_cases h : kv.1 = k
      · simp [dictGet, h]
      · simp [dictGet, h, ih, Ne.symm h]

theorem map_fst_dictSet (m : Store) (k : EdgeKey) (v : EdgeData) :
    (dictSet m k v).map Prod.fst =
      if (dictGet m k).isSome then m.map Prod.fst else m.map Prod.fst ++ [k] := by
  induction m with
  | nil => simp [dictSet, dictGet]
  | cons kv rest ih =>
      by_cases h : kv.1 = k
      · simp [dictSet, dictGet, h]
      · simp only [dictSet, if_neg h, List.map_cons, dictGet]
        rw [ih]
        by_cases hs : (dictGet rest k).isSome <;> simp [hs, h]

theorem nodupKeys_dictSet {m : Store} (k : EdgeKey) (v : EdgeData)
    (h : NodupKeys m) : NodupKeys (dictSet m k v) := by
  unfold NodupKeys
  rw [map_fst_dictSet]
  by_cases hs : (dictGet m k).isSome
  · simpa [hs] using h
  · have hn : dictGet m k = none := by
      cases hg : dictGet m k
      · rfl
      · simp [hg] at hs
    have hk : k ∉ m.map Prod.fst := (dictGet_eq_none_iff m k).mp hn
    rw [if_neg hs]
    refine List.Nodup.append h (List.nodup_singleton k) ?_
    simpa [List.disjoint_singleton] using hk

theorem nodupKeys_upsert {m : Store} (k : EdgeKey) (v : EdgeData)
    (h : NodupKeys m) : NodupKeys (upsert m k v) := by
  unfold upsert
  cases dictGet m k with
  | none => exact nodupKeys_dictSet k v h
  | some old =>
      by_cases ht : v.timestamp > old.timestamp
      · simpa [ht] using nodupKeys_dictSet k v h
      · simpa [ht] using h

theorem countP_key_eq_zero {m : Store} {k : EdgeKey}
    (h : k ∉ m.map Prod.fst) :
    m.countP (fun kv => decide (kv.1 = k)) = 0 := by
  induction m with
  | nil => simp
  | cons kv rest ih =>
      simp only [List.map_cons, List.mem_cons, not_or] at h
      rw [List.countP_cons]
      simp [Ne.symm h.1, ih h.2]

theorem countP_key_of_nodup {m : Store} {k : EdgeKey} (h : NodupKeys m) :
    m.countP (fun kv => decide (kv.1 = k)) =
      if (dictGet m k).isSome then 1 else 0 := by
  induction m with
  | nil => simp [dictGet]
  | cons kv rest ih =>
      have h' : NodupKeys rest := (List.nodup_cons.mp h).2
      by_cases hk : kv.1 = k
      · have : k ∉ rest.map Prod.fst := by
          have := (List.nodup_cons.mp h).1
          simpa [hk] using this
        rw [List.countP_cons]
        simp [dictGet, hk, countP_key_eq_zero this]
      · rw [List.countP_cons]
        simp [dictGet, hk, ih h']

theorem dictGet_upsert_isSome (m : Store) (k : EdgeKey) (v : EdgeData) :
    (dictGet (upsert m k v) k).isSome := by
  unfold upsert
  cases hg : dictGet m k with
  | none => simp [dictGet_dictSet_self]
  | some old =>
      by_cases ht : v.timestamp > old.timestamp
      · simp [ht, dictGet_dictSet_self]
      · simp [ht, hg]

/-- An upsert whose record has an equal-or-older timestamp than the stored
one leaves the store unchanged. -/
theorem upsert_stale {m : Store} {k : EdgeKey} {v old : EdgeData}
    (hg : dictGet m k = some old) (ht : v.timestamp ≤ old.timestamp) :
    upsert m k v = m := by
  unfold upsert
  rw [hg]
  simp [not_lt.mpr ht]

/-- Folding a batch of upserts for one key, starting from a store already
holding `cur` at that key: the final record is still there or comes from the
batch, and its timestamp dominates `cur` and the whole batch. -/
theorem fold_upsert_present (k : EdgeKey) :
    ∀ (l : List EdgeData) (g : Store) (cur : EdgeData),
      dictGet g k = some cur → NodupKeys g →
      ∃ d, dictGet (l.foldl (fun acc r => upsert acc k r) g) k = some d ∧
        (d = cur ∨ d ∈ l) ∧ cur.timestamp ≤ d.timestamp ∧
        (∀ r ∈ l, r.timestamp ≤ d.timestamp) ∧
        NodupKeys (l.foldl (fun acc r => upsert acc k r) g) := by
  intro l
  induction l with
  | nil =>
      intro g cur hg hnd
      exact ⟨cur, hg, Or.inl rfl, le_refl _, by simp, hnd⟩
  | cons r l ih =>
      intro g cur hg hnd
      by_cases ht : r.timestamp > cur.timestamp
      · have hup : dictGet (upsert g k r) k = some r := by
          unfold upsert
          rw [hg]
          simp [ht, dictGet_dictSet_self]
        obtain ⟨d, hd, hmem, hts, hall, hnd'⟩ :=
          ih (upsert g k r) r hup (nodupKeys_upsert k r hnd)
        refine ⟨d, by simpa using hd, ?_, le_trans (le_of_lt ht) hts, ?_, by simpa using hnd'⟩
        · rcases hmem with h | h
          · exact Or.inr (by simp [h])
          · exact Or.inr (by simp [h])
        · intro r' hr'
          rcases List.mem_cons.mp hr' with h | h
          · subst h; exact hts
          · exact hall r' h
      · have hup : upsert g k r = g := upsert_stale hg (not_lt.mp ht)
        obtain ⟨d, hd, hmem, hts, hall, hnd'⟩ := ih g cur hg hnd
        refine ⟨d, by simpa [hup] using hd, ?_, hts, ?_, by simpa [hup] using hnd'⟩
        · rcases hmem with h | h
          · exact Or.inl h
          · exact Or.inr (by simp [h])
        · intro r' hr'
          rcases List.mem_cons.mp hr' with h | h
          · subst h; exact le_trans (not_lt.mp ht) hts
          · exact hall r' h

/-- C1, main statement over a key initially absent from the store. -/
theorem upsert_sequence_lww (g : Store) (k : EdgeKey) (l : List EdgeData)
    (hk : dictGet g k = none) (hnd : NodupKeys g) (hne : l ≠ []) :
    (∃ d, d ∈ l ∧
      dictGet (l.foldl (fun acc r => upsert acc k r) g) k = some d ∧
      (∀ r ∈ l, r.timestamp ≤ d.timestamp)) ∧
    (l.foldl (fun acc r => upsert acc k r) g).countP (fun kv => decide (kv.1 = k)) = 1 := by
  cases l with
  | nil => exact absurd rfl hne
  | cons r0 l =>
      have h0 : dictGet (upsert g k r0) k = some r0 := by
        unfold upsert
        rw [hk]
        exact dictGet_dictSet_self g k r0
      obtain ⟨d, hd, hmem, hts, hall, hnd'⟩ :=
        fold_upsert_present k l (upsert g k r0) r0 h0 (nodupKeys_upsert k r0 hnd)
      constructor
      · refine ⟨d, ?_, by simpa using hd, ?_⟩
        · rcases hmem with h | h
          · exact List.mem_cons.mpr (Or.inl h)
          · exact List.mem_cons.mpr (Or.inr h)
        · intro r hr
          rcases List.mem_cons.mp hr with h | h
          · subst h; exact hts
          · exact hall r h
      · rw [countP_key_of_nodup (by simpa using hnd')]
        simp only [List.foldl_cons] at hd ⊢
        simp [hd]

/-! ### Sweep lemmas (C4) -/

theorem sweep_mem_iff (g : Store) (now ttl : Int) (kv : EdgeKey × EdgeData) :
    kv ∈ (sweep_expired g now ttl).1 ↔ kv ∈ g ∧ now - kv.2.timestamp ≤ ttl := by
  simp [sweep_expired, List.mem_filter, isExpired, not_lt]

theorem sweep_count (g : Store) (now ttl : Int) :
    ((sweep_expired g now ttl).1).length + (sweep_expired g now ttl).2 = g.length := by
  simp only [sweep_expired]
  induction g with
  | nil => simp
  | cons kv rest ih =>
      by_cases h : isExpired now ttl kv.2 <;>
        simp [List.filter_cons, h] <;> omega

theorem sweep_idempotent (g : Store) (now ttl : Int) :
    sweep_expired (sweep_expired g now ttl).1 now ttl = ((sweep_expired g now ttl).1, 0) := by
  simp only [sweep_expired, List.filter_filter]
  rw [Prod.mk.injEq]
  constructor
  · rw [List.filter_congr]
    intro kv _
    cases isExpired now ttl kv.2 <;> simp
  · rw [List.length_eq_zero, List.filter_eq_nil_iff]
    intro kv _
    cases h : isExpired now ttl kv.2 <;> simp [h]

/-! ### Adjacency lemmas -/

theorem adjGet_append_nil (adj : Adj) (n u : String) :
    adjGet (adj ++ [(n, [])]) u = adjGet adj u := by
  induction adj with
  | nil => by_cases h : n = u <;> simp [adjGet, h]
  | cons kv rest ih =>
      by_cases h : kv.1 = u <;> simp [adjGet, h, ih]

theorem adjGet_adjEnsure (adj : Adj) (n u : String) :
    adjGet (adjEnsure adj n) u = adjGet adj u := by
  unfold adjEnsure
  by_cases h : adjHas adj n <;> simp [h, adjGet_append_nil]

theorem adjHas_append (l1 l2 : Adj) (u : String) :
    adjHas (l1 ++ l2) u = (adjHas l1 u || adjHas l2 u) := by
  induction l1 with
  | nil => simp [adjHas]
  | cons kv rest ih => simp [adjHas, ih, Bool.or_assoc]

theorem adjHas_adjEnsure_self (adj : Adj) (n : String) :
    adjHas (adjEnsure adj n) n := by
  unfold adjEnsure
  by_cases h : adjHas adj n
  · simp [h]
  · simp [h, adjHas_append, adjHas]

theorem adjHas_adjEnsure_mono (adj : Adj) (n u : String)
    (h : adjHas adj u) : adjHas (adjEnsure adj n) u := by
  unfold adjEnsure
  by_cases hn : adjHas adj n
  · simpa [hn] using h
  · simp [hn, adjHas_append, h]

theorem adjHas_adjAppend (adj : Adj) (n u : String) (p : String × Nat) :
    adjHas (adjAppend adj n p) u = adjHas adj u := by
  induction adj with
  | nil => simp [adjAppend]
  | cons kv rest ih =>
      by_cases h : kv.1 = n <;> simp [adjAppend, adjHas, h, ih]

theorem adjGet_adjAppend_ne (adj : Adj) (n u : String) (p : String × Nat)
    (h : u ≠ n) : adjGet (adjAppend adj n p) u = adjGet adj u := by
  induction adj with
  | nil => simp [adjAppend, adjGet]
  | cons kv rest ih =>
      by_cases hk : kv.1 = n
      · subst hk
        simp [adjAppend, adjGet, Ne.symm h]
      · by_cases hu : kv.1 = u <;> simp [adjAppend, adjGet, hk, hu, h, ih]

theorem adjGet_adjAppend_self (adj : Adj) (n : String) (p : String × Nat) :
    adjGet (adjAppend adj n p) n =
      if adjHas adj n then adjGet adj n ++ [p] else adjGet adj n := by
  induction adj with
  | nil => simp [adjAppend, adjGet, adjHas]
  | cons kv rest ih =>
      by_cases hk : kv.1 = n
      · simp [adjAppend, adjGet, adjHas, hk]
      · simp [adjAppend, adjGet, adjHas, hk, ih]

theorem adjHas_of_adjGet_ne_nil {adj : Adj} {u : String}
    (h : adjGet adj u ≠ []) : adjHas adj u := by
  induction adj with
  | nil => simp [adjGet] at h
  | cons kv rest ih =>
      by_cases hk : kv.1 = u
      · simp [adjHas, hk]
      · simp only [adjGet, hk, if_neg] at h
        simp [adjHas, hk, ih h]

/-- The per-edge step of `build_adjacency_list`. -/
def buildStep (adj : Adj) (kv : EdgeKey × EdgeData) : Adj :=
  let u := kv.1.1
  let v := kv.1.2
  let adj := adjEnsure (adjEnsure adj u) v
  let w := weightOf kv.2
  adjAppend (adjAppend adj u (v, w)) v (u, w)

theorem build_adjacency_list_eq_foldl (g : Store) :
    build_adjacency_list g = g.foldl buildStep [] := rfl

/-- Membership in a node's neighbor list after one build step. -/
theorem mem_adjGet_buildStep (adj : Adj) (kv : EdgeKey × EdgeData)
    (u : String) (x : String × Nat) :
    x ∈ adjGet (buildStep adj kv) u ↔
      x ∈ adjGet adj u ∨
        (u = kv.1.1 ∧ x = (kv.1.2, weightOf kv.2)) ∨
        (u = kv.1.2 ∧ x = (kv.1.1, weightOf kv.2)) := by
  obtain ⟨⟨a, b⟩, dd⟩ := kv
  show x ∈ adjGet (adjAppend (adjAppend (adjEnsure (adjEnsure adj a) b) a
      (b, weightOf dd)) b (a, weightOf dd)) u ↔ _
  have h1 : adjHas (adjEnsure (adjEnsure adj a) b) a :=
    adjHas_adjEnsure_mono _ _ _ (adjHas_adjEnsure_self adj a)
  have h2 : adjHas (adjEnsure (adjEnsure adj a) b) b := adjHas_adjEnsure_self _ b
  have h2' : adjHas (adjAppend (adjEnsure (adjEnsure adj a) b) a
      (b, weightOf dd)) b := by
    rw [adjHas_adjAppend]; exact h2
  by_cases hub : u = b
  · subst hub
    rw [adjGet_adjAppend_self, if_pos h2']
    by_cases hua : u = a
    · subst hua
      rw [adjGet_adjAppend_self, if_pos h1, adjGet_adjEnsure, adjGet_adjEnsure]
      simp only [List.mem_append, List.mem_singleton]
      tauto
    · rw [adjGet_adjAppend_ne _ _ _ _ hua, adjGet_adjEnsure, adjGet_adjEnsure]
      simp only [List.mem_append, List.mem_singleton, hua, false_and, false_or]
      tauto
  · rw [adjGet_adjAppend_ne _ _ _ _ hub]
    by_cases hua : u = a
    · subst hua
      rw [adjGet_adjAppend_self, if_pos h1, adjGet_adjEnsure, adjGet_adjEnsure]
      simp only [List.mem_append, List.mem_singleton, hub, false_and, or_false]
      tauto
    · rw [adjGet_adjAppend_ne _ _ _ _ hua, adjGet_adjEnsure, adjGet_adjEnsure]
      simp [hua, hub]

theorem mem_adjGet_foldl_mono {x : String × Nat} {u : String} :
    ∀ (l : List (EdgeKey × EdgeData)) (adj : Adj),
      x ∈ adjGet adj u → x ∈ adjGet (l.foldl buildStep adj) u := by
  intro l
  induction l with
  | nil => intro adj h; exact h
  | cons kv rest ih =>
      intro adj h
      exact ih _ ((mem_adjGet_buildStep adj kv u x).mpr (Or.inl h))

theorem mem_adjGet_build_aux (k : EdgeKey) (d : EdgeData) :
    ∀ (g : List (EdgeKey × EdgeData)) (adj : Adj), (k, d) ∈ g →
      (k.2, weightOf d) ∈ adjGet (g.foldl buildStep adj) k.1 ∧
        (k.1, weightOf d) ∈ adjGet (g.foldl buildStep adj) k.2 := by
  intro g
  induction g with
  | nil => intro adj h; simp at h
  | cons kv rest ih =>
      intro adj h
      rcases List.mem_cons.mp h with h | h
      · subst h
        simp only [List.foldl_cons]
        constructor
        · exact mem_adjGet_foldl_mono rest _
            ((mem_adjGet_buildStep adj (k, d) k.1 _).mpr (Or.inr (Or.inl ⟨rfl, rfl⟩)))
        · exact mem_adjGet_foldl_mono rest _
            ((mem_adjGet_buildStep adj (k, d) k.2 _).mpr (Or.inr (Or.inr ⟨rfl, rfl⟩)))
      · exact ih (buildStep adj kv) h

/-- Every stored edge appears in both directions of the adjacency with its
derived weight. -/
theorem mem_adjGet_build (g : Store) (k : EdgeKey) (d : EdgeData)
    (h : (k, d) ∈ g) :
    (k.2, weightOf d) ∈ adjGet (build_adjacency_list g) k.1 ∧
      (k.1, weightOf d) ∈ adjGet (build_adjacency_list g) k.2 :=
  mem_adjGet_build_aux k d g [] h

/-! ### Parse lemmas (C2) -/

theorem parseStep_skip (acc : List (EdgeKey × EdgeData)) (kv : String × EdgeData)
    (hk : (splitComma kv.1).length ≠ 2) : parseStep acc kv = acc := by
  unfold parseStep
  rcases hsp : splitComma kv.1 with _ | ⟨a, _ | ⟨b, _ | ⟨c, t⟩⟩⟩ <;> simp_all

theorem parseEdges_drop_malformed (p1 p2 : List (String × EdgeData))
    (k : String) (v : EdgeData) (hk : (splitComma k).length ≠ 2) :
    parseEdges (p1 ++ (k, v) :: p2) = parseEdges (p1 ++ p2) := by
  unfold parseEdges
  rw [List.foldl_append, List.foldl_append, List.foldl_cons]
  rw [parseStep_skip _ (k, v) hk]

/-! ### Claim theorems for the store, parser and sweep -/

/-- C1: last-writer-wins merge.  For every sequence of upserts to one key
(starting from a store where the key is absent), the store afterwards holds
exactly one record for that key, a record of the sequence whose timestamp
dominates every upserted timestamp — independent of the order because the
statement quantifies over every arrival order; and an upsert whose timestamp
is equal to or older than the stored one leaves the store unchanged. -/
theorem claim1_lww (g : Store) (k : EdgeKey) (l : List EdgeData)
    (hk : dictGet g k = none) (hnd : NodupKeys g) (hne : l ≠ []) :
    ((∃ d, d ∈ l ∧ dictGet (l.foldl (fun acc r => upsert acc k r) g) k = some d ∧
        ∀ r ∈ l, r.timestamp ≤ d.timestamp) ∧
      (l.foldl (fun acc r => upsert acc k r) g).countP (fun kv => decide (kv.1 = k)) = 1) ∧
    ∀ (g' : Store) (old d : EdgeData), dictGet g' k = some old →
      d.timestamp ≤ old.timestamp → upsert g' k d = g' := by
  refine ⟨?_, fun g' old d h1 h2 => upsert_stale h1 h2⟩
  obtain ⟨h1, h2⟩ := upsert_sequence_lww g k l hk hnd hne
  exact ⟨h1, h2⟩

/-- Witness for C1 at a concrete input: three upserts with timestamps
100, 90, 95; the survivor carries the maximum timestamp 100. -/
theorem claim1_lww_witness :
    (dictGet [] (("N1", "N2") : EdgeKey) = none ∧
      NodupKeys [] ∧ ([⟨some (-40), 100⟩, ⟨some (-90), 90⟩, ⟨some (-50), 95⟩] :
        List EdgeData) ≠ []) ∧
    (((∃ d, d ∈ ([⟨some (-40), 100⟩, ⟨some (-90), 90⟩, ⟨some (-50), 95⟩] : List EdgeData) ∧
        dictGet (([⟨some (-40), 100⟩, ⟨some (-90), 90⟩, ⟨some (-50), 95⟩] :
          List EdgeData).foldl (fun acc r => upsert acc ("N1", "N2") r) []) ("N1", "N2") = some d ∧
        ∀ r ∈ ([⟨some (-40), 100⟩, ⟨some (-90), 90⟩, ⟨some (-50), 95⟩] : List EdgeData),
          r.timestamp ≤ d.timestamp) ∧
      (([⟨some (-40), 100⟩, ⟨some (-90), 90⟩, ⟨some (-50), 95⟩] :
        List EdgeData).foldl (fun acc r => upsert acc ("N1", "N2") r) []).countP
          (fun kv => decide (kv.1 = ("N1", "N2"))) = 1) ∧
    ∀ (g' : Store) (old d : EdgeData), dictGet g' ("N1", "N2") = some old →
      d.timestamp ≤ old.timestamp → upsert g' ("N1", "N2") d = g') :=
  ⟨⟨rfl, List.nodup_nil, by simp⟩,
    claim1_lww [] ("N1", "N2") [⟨some (-40), 100⟩, ⟨some (-90), 90⟩, ⟨some (-50), 95⟩]
      rfl List.nodup_nil (by simp)⟩

/-- The packet of the C2 counterexample: one malformed edge key
(`"A,B,C"` splits into three tokens) next to one well-formed key. -/
def c2packet : Packet :=
  ⟨some "N1", [("A,B,C", ⟨some (-5), 1⟩), ("X,Y", ⟨some (-7), 2⟩)]⟩

/-- C2 as stated is false: a datagram containing a malformed edge key is not
discarded as a whole — its well-formed edge `"X,Y"` is still merged into the
store, so the store does not stay empty. -/
theorem claim2_counterexample :
    (splitComma "A,B,C").length ≠ 2 ∧
    processPacket [] c2packet = [(("X", "Y"), ⟨some (-7), 2⟩)] ∧
    processPacket [] c2packet ≠ [] := by
  refine ⟨by decide, by decide, by decide⟩

/-- C2 amended: a malformed edge key (token count after splitting on commas
different from two) causes only that edge entry to be ignored — deleting it
from the datagram does not change the resulting store, and the remaining
edges are still applied — while a falsy sender (missing or empty) discards
the whole datagram. -/
theorem claim2_amended (g : Store) (s : Option String)
    (p1 p2 : List (String × EdgeData)) (k : String) (v : EdgeData)
    (hk : (splitComma k).length ≠ 2) :
    processPacket g ⟨s, p1 ++ (k, v) :: p2⟩ = processPacket g ⟨s, p1 ++ p2⟩ ∧
    (senderOk s = false → processPacket g ⟨s, p1 ++ (k, v) :: p2⟩ = g) := by
  constructor
  · unfold processPacket parse_packet
    rw [parseEdges_drop_malformed p1 p2 k v hk]
  · intro hs
    unfold processPacket parse_packet
    simp [hs]

/-- Witness for C2 amended at a concrete input. -/
theorem claim2_amended_witness :
    ((splitComma "A,B,C").length ≠ 2) ∧
    (processPacket [] ⟨some "N1", [("A,B,C", ⟨some (-5), 1⟩)] ++ ("A,B,C", ⟨some (-5), 1⟩) ::
        [("X,Y", ⟨some (-7), 2⟩)]⟩ =
      processPacket [] ⟨some "N1", [("A,B,C", ⟨some (-5), 1⟩)] ++ [("X,Y", ⟨some (-7), 2⟩)]⟩ ∧
    (senderOk (some "N1") = false → processPacket []
        ⟨some "N1", [("A,B,C", ⟨some (-5), 1⟩)] ++ ("A,B,C", ⟨some (-5), 1⟩) ::
          [("X,Y", ⟨some (-7), 2⟩)]⟩ = [])) :=
  ⟨by decide,
    claim2_amended [] (some "N1") [("A,B,C", ⟨some (-5), 1⟩)] [("X,Y", ⟨some (-7), 2⟩)]
      "A,B,C" ⟨some (-5), 1⟩ (by decide)⟩

/-- C4: the sweep keeps exactly the entries with `now - observed_at ≤ ttl`
(so it removes every entry with `now - observed_at > ttl` and no other),
its count accounts for every removed entry, and an immediate second sweep
with the same `now` removes nothing. -/
theorem claim4_sweep (g : Store) (now ttl : Int) :
    (∀ kv, kv ∈ (sweep_expired g now ttl).1 ↔ kv ∈ g ∧ now - kv.2.timestamp ≤ ttl) ∧
    ((sweep_expired g now ttl).1).length + (sweep_expired g now ttl).2 = g.length ∧
    sweep_expired (sweep_expired g now ttl).1 now ttl = ((sweep_expired g now ttl).1, 0) :=
  ⟨fun kv => sweep_mem_iff g now ttl kv, sweep_count g now ttl, sweep_idempotent g now ttl⟩

/-! ### Code-point order lemmas -/

theorem charListLe_total : ∀ l1 l2 : List Char, charListLe l1 l2 ∨ charListLe l2 l1 := by
  intro l1
  induction l1 with
  | nil => intro l2; left; simp [charListLe]
  | cons a as ih =>
      intro l2
      cases l2 with
      | nil => right; simp [charListLe]
      | cons b bs =>
          rcases Nat.lt_trichotomy a.toNat b.toNat with h | h | h
          · left; simp [charListLe, h]
          · rcases ih bs with h' | h'
            · left; simp [charListLe, h, h']
            · right; simp [charListLe, h.symm, h']
          · right; simp [charListLe, h]

theorem charListLe_antisymm : ∀ l1 l2 : List Char,
    charListLe l1 l2 → charListLe l2 l1 → l1 = l2 := by
  intro l1
  induction l1 with
  | nil =>
      intro l2 _ h2
      cases l2 with
      | nil => rfl
      | cons b bs => simp [charListLe] at h2
  | cons a as ih =>
      intro l2 h1 h2
      cases l2 with
      | nil => simp [charListLe] at h1
      | cons b bs =>
          rcases Nat.lt_trichotomy a.toNat b.toNat with h | h | h
          · simp [charListLe, h, Nat.not_lt.mpr (le_of_lt h)] at h2
          · have hab : a = b := by
              have hv : a.val.toNat = b.val.toNat := h
              exact Char.eq_of_val_eq (UInt32.ext hv)
            subst hab
            simp only [charListLe, lt_irrefl, if_false] at h1 h2
            rw [ih bs h1 h2]
          · simp [charListLe, h, Nat.not_lt.mpr (le_of_lt h)] at h1

theorem strLe_total (a b : String) : strLe a b ∨ strLe b a :=
  charListLe_total a.toList b.toList

theorem strLe_antisymm {a b : String} (h1 : strLe a b) (h2 : strLe b a) : a = b := by
  have h := charListLe_antisymm a.toList b.toList h1 h2
  cases a
  cases b
  simp only [String.toList] at h
  rw [h]

theorem get_canonical_edge_comm (a b : String) :
    get_canonical_edge a b = get_canonical_edge b a := by
  unfold get_canonical_edge
  by_cases h1 : strLe a b
  · by_cases h2 : strLe b a
    · have : a = b := strLe_antisymm h1 h2
      subst this
      simp
    · simp [h1, h2]
  · have h2 : strLe b a := (strLe_total a b).resolve_left h1
    simp [h1, h2]

theorem get_canonical_edge_sorted (a b : String) :
    strLe (get_canonical_edge a b).1 (get_canonical_edge a b).2 := by
  unfold get_canonical_edge
  by_cases h : strLe a b
  · simp [h]
  · have h2 : strLe b a := (strLe_total a b).resolve_left h
    simpa [h] using h2

/-! ### Canonical-slot lemmas (C5) -/

/-- Every key of the store is sorted — true of the live `graph` because every
key that reaches it went through `get_canonical_edge`. -/
def Canon (g : Store) : Prop := ∀ kv ∈ g, strLe kv.1.1 kv.1.2

theorem mem_dictSet {m : Store} {k : EdgeKey} {v : EdgeData}
    {x : EdgeKey × EdgeData} (h : x ∈ dictSet m k v) : x ∈ m ∨ x = (k, v) := by
  induction m with
  | nil => simpa [dictSet] using h
  | cons kv rest ih =>
      by_cases hk : kv.1 = k
      · rcases List.mem_cons.mp (by simpa [dictSet, hk] using h) with h' | h'
        · exact Or.inr h'
        · exact Or.inl (List.mem_cons.mpr (Or.inr h'))
      · rcases List.mem_cons.mp (by simpa [dictSet, hk] using h) with h' | h'
        · exact Or.inl (List.mem_cons.mpr (Or.inl h'))
        · rcases ih h' with h'' | h''
          · exact Or.inl (List.mem_cons.mpr (Or.inr h''))
          · exact Or.inr h''

theorem canon_dictSet {g : Store} {k : EdgeKey} {v : EdgeData}
    (hc : Canon g) (hk : strLe k.1 k.2) : Canon (dictSet g k v) := by
  intro kv hkv
  rcases mem_dictSet hkv with h | h
  · exact hc kv h
  · rw [h]
    exact hk

theorem canon_upsert {g : Store} {k : EdgeKey} {v : EdgeData}
    (hc : Canon g) (hk : strLe k.1 k.2) : Canon (upsert g k v) := by
  unfold upsert
  cases dictGet g k with
  | none => exact canon_dictSet hc hk
  | some old =>
      by_cases ht : v.timestamp > old.timestamp
      · simpa [ht] using canon_dictSet hc hk
      · simpa [ht] using hc

/-- C5: canonicalization.  `get_canonical_edge` identifies `(A,B)` with
`(B,A)`, the canonical key is sorted, and after upserting a record under key
`(A,B)` and one under key `(B,A)` a snapshot holds exactly one entry for the
unordered pair — never two. -/
theorem claim5_canonical (g : Store) (a b : String) (r r' : EdgeData)
    (hab : a ≠ b) (hnd : NodupKeys g) (hc : Canon g) :
    get_canonical_edge a b = get_canonical_edge b a ∧
    strLe (get_canonical_edge a b).1 (get_canonical_edge a b).2 = true ∧
    (upsert (upsert g (get_canonical_edge a b) r) (get_canonical_edge b a) r').countP
      (fun kv => decide (kv.1 = (a, b)) || decide (kv.1 = (b, a))) = 1 := by
  refine ⟨get_canonical_edge_comm a b, get_canonical_edge_sorted a b, ?_⟩
  rw [← get_canonical_edge_comm a b]
  have hsort := get_canonical_edge_sorted a b
  have hnd2 : NodupKeys (upsert (upsert g (get_canonical_edge a b) r)
      (get_canonical_edge a b) r') :=
    nodupKeys_upsert _ _ (nodupKeys_upsert _ _ hnd)
  have hc2 : Canon (upsert (upsert g (get_canonical_edge a b) r)
      (get_canonical_edge a b) r') :=
    canon_upsert (canon_upsert hc hsort) hsort
  have hcongr : ∀ kv ∈ upsert (upsert g (get_canonical_edge a b) r)
      (get_canonical_edge a b) r',
      ((decide (kv.1 = (a, b)) || decide (kv.1 = (b, a))) = true ↔
        decide (kv.1 = get_canonical_edge a b) = true) := by
    intro kv hkv
    have hkvs := hc2 kv hkv
    simp only [Bool.or_eq_true, decide_eq_true_eq]
    by_cases hle : strLe a b
    · have hcc : get_canonical_edge a b = (a, b) := by simp [get_canonical_edge, hle]
      rw [hcc]
      constructor
      · rintro (h | h)
        · exact h
        · have : strLe b a := by
            rw [h] at hkvs
            exact hkvs
          exact absurd (strLe_antisymm hle this) hab
      · exact Or.inl
    · have hcc : get_canonical_edge a b = (b, a) := by simp [get_canonical_edge, hle]
      rw [hcc]
      constructor
      · rintro (h | h)
        · have : strLe a b := by
            rw [h] at hkvs
            exact hkvs
          exact absurd this hle
        · exact h
      · exact Or.inr
  rw [List.countP_congr hcongr, countP_key_of_nodup hnd2]
  simp [dictGet_upsert_isSome]

/-- Witness for C5 at a concrete input. -/
theorem claim5_canonical_witness :
    (("B" : String) ≠ "A" ∧ NodupKeys [] ∧ Canon []) ∧
    (get_canonical_edge "B" "A" = get_canonical_edge "A" "B" ∧
    strLe (get_canonical_edge "B" "A").1 (get_canonical_edge "B" "A").2 = true ∧
    (upsert (upsert [] (get_canonical_edge "B" "A") ⟨some (-40), 100⟩)
        (get_canonical_edge "A" "B") ⟨some (-50), 101⟩).countP
      (fun kv => decide (kv.1 = ("B", "A")) || decide (kv.1 = ("A", "B"))) = 1) :=
  ⟨⟨by decide, List.nodup_nil, by intro kv hkv; simp at hkv⟩,
    claim5_canonical [] "B" "A" ⟨some (-40), 100⟩ ⟨some (-50), 101⟩ (by decide)
      List.nodup_nil (by intro kv hkv; simp at hkv)⟩

/-- C10: a stored record without an `rssi` field is not skipped by adjacency
construction — it contributes both directions with the default weight
`abs(-100) = 100`, so it participates in the derived graph that
`dijkstra` and `bfs` query. -/
theorem claim10_default_rssi (g : Store) (k : EdgeKey) (d : EdgeData)
    (h : (k, d) ∈ g) (hr : d.rssi = none) :
    (k.2, 100) ∈ adjGet (build_adjacency_list g) k.1 ∧
      (k.1, 100) ∈ adjGet (build_adjacency_list g) k.2 := by
  have hm := mem_adjGet_build g k d h
  have hw : weightOf d = 100 := by simp [weightOf, hr]
  rwa [hw] at hm

/-- A one-edge store whose record lacks the `rssi` field. -/
def c10store : Store := [(("A", "B"), ⟨none, 50⟩)]

/-- Witness for C10 at a concrete input. -/
theorem claim10_default_rssi_witness :
    ((("A", "B"), (⟨none, 50⟩ : EdgeData)) ∈ c10store ∧
      (⟨none, 50⟩ : EdgeData).rssi = none) ∧
    (("B", 100) ∈ adjGet (build_adjacency_list c10store) "A" ∧
      ("A", 100) ∈ adjGet (build_adjacency_list c10store) "B") :=
  ⟨⟨by simp [c10store], rfl⟩,
    claim10_default_rssi c10store ("A", "B") ⟨none, 50⟩ (by simp [c10store]) rfl⟩

/-! ### Adjacency well-formedness -/

theorem adjHas_iff_mem_keys (adj : Adj) (u : String) :
    adjHas adj u = true ↔ u ∈ adjKeys adj := by
  induction adj with
  | nil => simp [adjHas, adjKeys]
  | cons kv rest ih =>
      by_cases h : kv.1 = u
      · simp [adjHas, adjKeys, h]
      · simp [adjHas, adjKeys, h, Ne.symm h, ih]

theorem adjKeys_adjAppend (adj : Adj) (n : String) (p : String × Nat) :
    adjKeys (adjAppend adj n p) = adjKeys adj := by
  induction adj with
  | nil => simp [adjAppend, adjKeys]
  | cons kv rest ih =>
      by_cases h : kv.1 = n
      · simp [adjAppend, adjKeys, h]
      · simp only [adjAppend, h, if_false, adjKeys, List.map_cons]
        simpa [adjKeys] using ih

theorem adjKeys_adjEnsure (adj : Adj) (n : String) :
    adjKeys (adjEnsure adj n) =
      if adjHas adj n then adjKeys adj else adjKeys adj ++ [n] := by
  unfold adjEnsure
  by_cases h : adjHas adj n <;> simp [h, adjKeys]

/-- Well-formedness of the derived adjacency: distinct node keys, symmetric
edges, and neighbors that are themselves keys. -/
def AdjInv (adj : Adj) : Prop :=
  (adjKeys adj).Nodup ∧
  ∀ u v w, (v, w) ∈ adjGet adj u →
    ((u, w) ∈ adjGet adj v ∧ adjHas adj u = true ∧ adjHas adj v = true)

theorem adjKeys_nodup_adjEnsure {adj : Adj} (n : String)
    (h : (adjKeys adj).Nodup) : (adjKeys (adjEnsure adj n)).Nodup := by
  rw [adjKeys_adjEnsure]
  by_cases hn : adjHas adj n
  · simpa [hn] using h
  · have : n ∉ adjKeys adj := fun hm => hn ((adjHas_iff_mem_keys adj n).mpr hm)
    simp only [hn, if_false]
    refine List.Nodup.append h (List.nodup_singleton n) ?_
    simpa [List.disjoint_singleton] using this

theorem adjHas_adjEnsure (adj : Adj) (n x : String) :
    adjHas (adjEnsure adj n) x = (adjHas adj x || decide (x = n)) := by
  unfold adjEnsure
  by_cases h : adjHas adj n
  · by_cases hx : x = n
    · subst hx
      simp [h]
    · simp [h, hx]
  · rw [if_neg h, adjHas_append]
    by_cases hx : x = n
    · simp [adjHas, hx]
    · simp [adjHas, hx, Ne.symm hx]

theorem adjHas_buildStep (adj : Adj) (kv : EdgeKey × EdgeData) (x : String) :
    adjHas (buildStep adj kv) x =
      (adjHas adj x || decide (x = kv.1.1) || decide (x = kv.1.2)) := by
  unfold buildStep
  rw [adjHas_adjAppend, adjHas_adjAppend, adjHas_adjEnsure, adjHas_adjEnsure]

theorem adjKeys_nodup_buildStep {adj : Adj} (kv : EdgeKey × EdgeData)
    (h : (adjKeys adj).Nodup) : (adjKeys (buildStep adj kv)).Nodup := by
  unfold buildStep
  rw [adjKeys_adjAppend, adjKeys_adjAppend]
  exact adjKeys_nodup_adjEnsure _ (adjKeys_nodup_adjEnsure _ h)

theorem adjInv_buildStep {adj : Adj} (kv : EdgeKey × EdgeData)
    (h : AdjInv adj) : AdjInv (buildStep adj kv) := by
  obtain ⟨hnd, hsym⟩ := h
  refine ⟨adjKeys_nodup_buildStep kv hnd, ?_⟩
  intro u v w hm
  rcases (mem_adjGet_buildStep adj kv u (v, w)).mp hm with hold | ⟨hu, hx⟩ | ⟨hu, hx⟩
  · obtain ⟨hs, hhu, hhv⟩ := hsym u v w hold
    refine ⟨(mem_adjGet_buildStep adj kv v (u, w)).mpr (Or.inl hs), ?_, ?_⟩ <;>
      simp [adjHas_buildStep, hhu, hhv]
  · obtain ⟨he1, he2⟩ := Prod.mk.injEq .. ▸ hx
    refine ⟨(mem_adjGet_buildStep adj kv v (u, w)).mpr ?_, ?_, ?_⟩
    · exact Or.inr (Or.inr ⟨he1, by rw [hu, he2]⟩)
    · simp [adjHas_buildStep, hu]
    · simp [adjHas_buildStep, he1]
  · obtain ⟨he1, he2⟩ := Prod.mk.injEq .. ▸ hx
    refine ⟨(mem_adjGet_buildStep adj kv v (u, w)).mpr ?_, ?_, ?_⟩
    · exact Or.inr (Or.inl ⟨he1, by rw [hu, he2]⟩)
    · simp [adjHas_buildStep, hu]
    · simp [adjHas_buildStep, he1]

theorem adjInv_build (g : Store) : AdjInv (build_adjacency_list g) := by
  rw [build_adjacency_list_eq_foldl]
  have : ∀ (l : List (EdgeKey × EdgeData)) (adj : Adj), AdjInv adj →
      AdjInv (l.foldl buildStep adj) := by
    intro l
    induction l with
    | nil => intro adj h; exact h
    | cons kv rest ih => intro adj h; exact ih _ (adjInv_buildStep kv h)
  refine this g [] ⟨List.nodup_nil, ?_⟩
  intro u v w hm
  simp [adjGet] at hm

/-! ### BFS verification (C7) -/

/-- Reachability in an adjacency dictionary: the reflexive-transitive closure
of the neighbor relation. -/
def Reaches (adj : Adj) : String → String → Prop :=
  Relation.ReflTransGen (fun x y => ∃ w, (y, w) ∈ adjGet adj x)

/-- Invariant of the `bfs` loop state. -/
structure BInv (adj : Adj) (start : String) (s : BState) : Prop where
  perm : s.visited.Perm (s.out ++ s.queue)
  nodup : s.visited.Nodup
  startMem : start ∈ s.visited
  reach : ∀ x ∈ s.visited, Reaches adj start x
  closed : ∀ x ∈ s.out, ∀ vw ∈ adjGet adj x, vw.1 ∈ s.visited
  keys : ∀ x ∈ s.visited, adjHas adj x = true
  order : (s.out = [] ∧ s.queue = [start]) ∨ s.out.head? = some start

theorem bvisit_out (t : BState) (vw : String × Nat) : (bvisit t vw).out = t.out := by
  unfold bvisit
  split <;> rfl

/-- Combined effect of the neighbor-inspection fold of one BFS iteration. -/
theorem foldl_bvisit_spec (adj : Adj) (start n : String) (hadj : AdjInv adj)
    (hn : Reaches adj start n) :
    ∀ (l : List (String × Nat)) (t : BState),
      (∀ vw ∈ l, vw ∈ adjGet adj n) →
      t.visited.Perm (t.out ++ t.queue) → t.visited.Nodup →
      (∀ x ∈ t.visited, Reaches adj start x) →
      (∀ x ∈ t.visited, adjHas adj x = true) →
      ((l.foldl bvisit t).visited.Perm
          ((l.foldl bvisit t).out ++ (l.foldl bvisit t).queue) ∧
        (l.foldl bvisit t).visited.Nodup ∧
        (∀ x ∈ t.visited, x ∈ (l.foldl bvisit t).visited) ∧
        (∀ x ∈ (l.foldl bvisit t).visited, Reaches adj start x) ∧
        (∀ x ∈ (l.foldl bvisit t).visited, adjHas adj x = true) ∧
        (∀ vw ∈ l, vw.1 ∈ (l.foldl bvisit t).visited) ∧
        (l.foldl bvisit t).out = t.out ∧
        (l.foldl bvisit t).visited.length + t.queue.length =
          t.visited.length + (l.foldl bvisit t).queue.length ∧
        t.visited.length ≤ (l.foldl bvisit t).visited.length) := by
  intro l
  induction l with
  | nil =>
      intro t _ hperm hnd hreach hkeys
      exact ⟨hperm, hnd, fun x hx => hx, hreach, hkeys, by simp, rfl, rfl, le_refl _⟩
  | cons vw l ih =>
      intro t hl hperm hnd hreach hkeys
      by_cases hc : t.visited.contains vw.1
      · have ht1 : bvisit t vw = t := by unfold bvisit; rw [if_pos hc]
        rw [List.foldl_cons, ht1]
        obtain ⟨p1, p2, p3, p4, p5, p6, p7, p8, p9⟩ :=
          ih t (fun x hx => hl x (List.mem_cons.mpr (Or.inr hx))) hperm hnd hreach hkeys
        refine ⟨p1, p2, p3, p4, p5, ?_, p7, p8, p9⟩
        intro x hx
        rcases List.mem_cons.mp hx with hx | hx
        · subst hx
          exact p3 _ (List.elem_iff.mp hc)
        · exact p6 x hx
      · have hmem : vw.1 ∉ t.visited := fun hm => hc (List.elem_iff.mpr hm)
        have ht1 : bvisit t vw =
            { t with visited := vw.1 :: t.visited, queue := t.queue ++ [vw.1] } := by
          unfold bvisit
          rw [if_neg hc]
        rw [List.foldl_cons, ht1]
        have hedge : Reaches adj start vw.1 :=
          Relation.ReflTransGen.tail hn ⟨vw.2, hl vw (List.mem_cons.mpr (Or.inl rfl))⟩
        have hkey : adjHas adj vw.1 = true :=
          (hadj.2 n vw.1 vw.2 (by
            have := hl vw (List.mem_cons.mpr (Or.inl rfl))
            simpa using this)).2.2
        have hperm1 : (vw.1 :: t.visited).Perm (t.out ++ (t.queue ++ [vw.1])) := by
          have h1 : (vw.1 :: t.visited).Perm (vw.1 :: (t.out ++ t.queue)) :=
            hperm.cons vw.1
          have h2 : (vw.1 :: (t.out ++ t.queue)).Perm ((t.out ++ t.queue) ++ [vw.1]) :=
            (List.perm_append_singleton vw.1 (t.out ++ t.queue)).symm
          have h3 : (t.out ++ t.queue) ++ [vw.1] = t.out ++ (t.queue ++ [vw.1]) :=
            List.append_assoc _ _ _
          exact (h1.trans h2).trans (h3 ▸ List.Perm.refl _)
        obtain ⟨p1, p2, p3, p4, p5, p6, p7, p8, p9⟩ :=
          ih { t with visited := vw.1 :: t.visited, queue := t.queue ++ [vw.1] }
            (fun x hx => hl x (List.mem_cons.mpr (Or.inr hx)))
            hperm1
            (List.nodup_cons.mpr ⟨hmem, hnd⟩)
            (by
              intro x hx
              rcases List.mem_cons.mp hx with hx | hx
              · subst hx; exact hedge
              · exact hreach x hx)
            (by
              intro x hx
              rcases List.mem_cons.mp hx with hx | hx
              · subst hx; exact hkey
              · exact hkeys x hx)
        refine ⟨p1, p2, ?_, p4, p5, ?_, p7, ?_, ?_⟩
        · intro x hx
          exact p3 x (List.mem_cons.mpr (Or.inr hx))
        · intro x hx
          rcases List.mem_cons.mp hx with hx | hx
          · subst hx
            exact p3 _ (List.mem_cons.mpr (Or.inl rfl))
          · exact p6 x hx
        · simp only [List.length_cons, List.length_append, List.length_singleton,
            List.length_nil] at p8 ⊢
          omega
        · simp only [List.length_cons] at p9
          omega

/-- Termination potential of the BFS loop. -/
def bmeasure (adj : Adj) (s : BState) : Nat :=
  2 * ((adjKeys adj).length - s.visited.length) + s.queue.length

/-- Running the BFS loop with enough fuel empties the queue and preserves
the invariant. -/
theorem bloop_spec (adj : Adj) (start : String) (hadj : AdjInv adj) :
    ∀ (fuel : Nat) (s : BState), BInv adj start s → bmeasure adj s < fuel →
      (bloop adj fuel s).queue = [] ∧ BInv adj start (bloop adj fuel s) := by
  intro fuel
  induction fuel with
  | zero => intro s _ hm; omega
  | succ fuel ih =>
      intro s hinv hm
      match hq : s.queue with
      | [] =>
          have : bloop adj (fuel + 1) s = s := by
            unfold bloop
            rw [hq]
          rw [this]
          exact ⟨hq, hinv⟩
      | n :: rest =>
          have hnv : n ∈ s.visited := hinv.perm.mem_iff.mpr (by
            rw [hq]
            simp)
          have hreachn : Reaches adj start n := hinv.reach n hnv
          have hVK : s.visited.length ≤ (adjKeys adj).length := by
            refine (List.Nodup.subperm hinv.nodup ?_).length_le
            intro x hx
            exact (adjHas_iff_mem_keys adj x).mp (hinv.keys x hx)
          set t0 : BState := { s with queue := rest, out := s.out ++ [n] } with ht0
          have hperm0 : t0.visited.Perm (t0.out ++ t0.queue) := by
            have : t0.out ++ t0.queue = s.out ++ s.queue := by
              rw [ht0, hq]
              simp
            rw [this]
            exact hinv.perm
          obtain ⟨p1, p2, p3, p4, p5, p6, p7, p8, p9⟩ :=
            foldl_bvisit_spec adj start n hadj hreachn (adjGet adj n) t0
              (fun vw hvw => hvw) hperm0 hinv.nodup hinv.reach hinv.keys
          set t1 := (adjGet adj n).foldl bvisit t0 with ht1
          have hstep : bloop adj (fuel + 1) s = bloop adj fuel t1 := by
            conv =>
              lhs
              unfold bloop
            rw [hq]
          have hV1K : t1.visited.length ≤ (adjKeys adj).length := by
            refine (List.Nodup.subperm p2 ?_).length_le
            intro x hx
            exact (adjHas_iff_mem_keys adj x).mp (p5 x hx)
          have hminv : BInv adj start t1 := by
            refine ⟨p1, p2, p3 start hinv.startMem, p4, ?_, p5, ?_⟩
            · intro x hx vw hvw
              rw [p7] at hx
              rcases List.mem_append.mp hx with hx | hx
              · exact p3 _ (hinv.closed x hx vw hvw)
              · have hxn : x = n := by simpa using hx
                subst hxn
                exact p6 vw hvw
            · rw [p7]
              have ht0out : t0.out = s.out ++ [n] := rfl
              rw [ht0out]
              rcases hinv.order with ⟨ho, hqe⟩ | ho
              · right
                rw [ho]
                have : n = start := by
                  rw [hq] at hqe
                  exact (List.cons.injEq .. ▸ hqe).1
                simp [this]
              · right
                cases hout : s.out with
                | nil => rw [hout] at ho; simp at ho
                | cons y ys =>
                    rw [hout] at ho
                    simpa using ho
          have hmeas : bmeasure adj t1 < bmeasure adj s := by
            have hq1 : s.queue.length = rest.length + 1 := by rw [hq]; rfl
            have ht0q : t0.queue.length = rest.length := rfl
            have ht0v : t0.visited.length = s.visited.length := rfl
            unfold bmeasure
            rw [ht0q, ht0v] at p8
            rw [hq1]
            omega
          obtain ⟨r1, r2⟩ := ih t1 hminv (by omega)
          rw [hstep]
          exact ⟨r1, r2⟩

/-- The store used by the concrete BFS and shortest-path witnesses: the
end-to-end scenario of the specification. -/
def demoStore : Store :=
  [(("N1", "N2"), ⟨some (-40), 100⟩), (("N2", "N3"), ⟨some (-60), 100⟩)]

/-- C7: `bfs` returns the empty sequence when the start node has no live
edge, and otherwise visits exactly the connected component of the start
node: the output begins with the start node, repeats no node, and contains
a node iff it is reachable from the start in the derived adjacency.  The
output order is the loop's visitation order by construction of `bfs`. -/
theorem claim7_reachable (g : Store) (start : String) :
    (adjHas (build_adjacency_list g) start = false → bfs g start = []) ∧
    (adjHas (build_adjacency_list g) start = true →
      (bfs g start).head? = some start ∧ (bfs g start).Nodup ∧
      ∀ v, (v ∈ bfs g start ↔ Reaches (build_adjacency_list g) start v)) := by
  constructor
  · intro h
    unfold bfs
    simp [h]
  · intro h
    have hadj := adjInv_build g
    have hinit : BInv (build_adjacency_list g) start
        { visited := [start], queue := [start], out := [] } := by
      refine ⟨by simp, List.nodup_singleton start, by simp, ?_, by simp, ?_, Or.inl ⟨rfl, rfl⟩⟩
      · intro x hx
        have : x = start := by simpa using hx
        subst this
        exact Relation.ReflTransGen.refl
      · intro x hx
        have : x = start := by simpa using hx
        subst this
        exact h
    have hK : 1 ≤ (adjKeys (build_adjacency_list g)).length := by
      have := (adjHas_iff_mem_keys (build_adjacency_list g) start).mp h
      exact List.length_pos.mpr (fun he => by simp [he] at this)
    have hmeas : bmeasure (build_adjacency_list g)
        { visited := [start], queue := [start], out := [] } <
        2 * (adjKeys (build_adjacency_list g)).length + 1 := by
      unfold bmeasure
      simp only [List.length_singleton]
      omega
    obtain ⟨hq, hinv⟩ := bloop_spec (build_adjacency_list g) start hadj
      (2 * (adjKeys (build_adjacency_list g)).length + 1)
      { visited := [start], queue := [start], out := [] } hinit hmeas
    have hbfs : bfs g start = (bloop (build_adjacency_list g)
        (2 * (adjKeys (build_adjacency_list g)).length + 1)
        { visited := [start], queue := [start], out := [] }).out := by
      unfold bfs
      simp [h]
    set t := bloop (build_adjacency_list g)
      (2 * (adjKeys (build_adjacency_list g)).length + 1)
      { visited := [start], queue := [start], out := [] } with hts
    have hperm : t.visited.Perm t.out := by
      have := hinv.perm
      rwa [hq, List.append_nil] at this
    have hmemout : ∀ x, x ∈ t.out ↔ x ∈ t.visited := fun x => hperm.mem_iff.symm
    refine ⟨?_, ?_, ?_⟩
    · rw [hbfs]
      rcases hinv.order with ⟨_, hqe⟩ | ho
      · rw [hq] at hqe
        simp at hqe
      · exact ho
    · rw [hbfs]
      exact hperm.nodup_iff.mp hinv.nodup
    · intro v
      rw [hbfs]
      constructor
      · intro hv
        exact hinv.reach v ((hmemout v).mp hv)
      · intro hv
        induction hv with
        | refl => exact (hmemout start).mpr hinv.startMem
        | tail hxy hr ihv =>
            rcases hr with ⟨w, hw⟩
            rename_i x y
            exact (hmemout y).mpr (hinv.closed x ihv (y, w) hw)

/-- Witness for C7 at the concrete two-edge store. -/
theorem claim7_reachable_witness :
    adjHas (build_adjacency_list demoStore) "N2" = true ∧
    ((bfs demoStore "N2").head? = some "N2" ∧ (bfs demoStore "N2").Nodup ∧
      ∀ v, (v ∈ bfs demoStore "N2" ↔ Reaches (build_adjacency_list demoStore) "N2" v)) :=
  ⟨by decide, (claim7_reachable demoStore "N2").2 (by decide)⟩

/-! ### Walks in an adjacency dictionary (C3, C6, C8) -/

/-- A walk along the adjacency with its total cost: `IsWalk adj p c` means
the consecutive nodes of `p` are joined by adjacency entries whose weights
sum to `c`.  The cost is relational because the same neighbor may occur with
several weights. -/
inductive IsWalk (adj : Adj) : List String → Nat → Prop
  | single (v : String) : IsWalk adj [v] 0
  | cons {u v : String} {w : Nat} {rest : List String} {c : Nat} :
      (v, w) ∈ adjGet adj u → IsWalk adj (v :: rest) c →
      IsWalk adj (u :: v :: rest) (w + c)

theorem isWalk_ne_nil {adj : Adj} {p : List String} {c : Nat}
    (h : IsWalk adj p c) : p ≠ [] := by
  cases h <;> simp

theorem isWalk_snoc {adj : Adj} {p : List String} {c : Nat} {u v : String}
    {w : Nat} (h : IsWalk adj p c) (hl : p.getLast? = some u)
    (he : (v, w) ∈ adjGet adj u) : IsWalk adj (p ++ [v]) (c + w) := by
  induction h with
  | single x =>
      have hx : x = u := by simpa using hl
      subst hx
      have : (0 : Nat) + w = w + 0 := by omega
      rw [this]
      exact IsWalk.cons he (IsWalk.single v)
  | cons hxe hrest ih =>
      rename_i x y wxy rest c'
      have hl' : (y :: rest).getLast? = some u := by
        rw [List.getLast?_cons_cons] at hl
        exact hl
      have : IsWalk adj (x :: ((y :: rest) ++ [v])) (wxy + (c' + w)) :=
        IsWalk.cons hxe (ih hl')
      have harith : wxy + (c' + w) = wxy + c' + w := by omega
      rw [harith] at this
      simpa using this

/-- `∃ d, o = some d ∧ d ≤ c`: a finite distance bounded by `c`. -/
def leD (o : Option Nat) (c : Nat) : Prop := ∃ d, o = some d ∧ d ≤ c

theorem leD_mono {o : Option Nat} {c c' : Nat} (h : leD o c) (hc : c ≤ c') :
    leD o c' := by
  obtain ⟨d, hd, hdc⟩ := h
  exact ⟨d, hd, le_trans hdc hc⟩

/-- Sum of the weights in one node's neighbor list. -/
def adjW (adj : Adj) (x : String) : Nat := ((adjGet adj x).map (·.2)).sum

theorem adjW_nil (x : String) : adjW [] x = 0 := rfl

theorem mem_weight_le_adjW {adj : Adj} {u v : String} {w : Nat}
    (h : (v, w) ∈ adjGet adj u) : w ≤ adjW adj u := by
  unfold adjW
  have : w ∈ (adjGet adj u).map (·.2) := List.mem_map.mpr ⟨(v, w), h, rfl⟩
  exact List.single_le_sum (fun x _ => Nat.zero_le x) w this

theorem sum_adjW_le (adj : Adj) :
    ∀ l : List String, l.Nodup → (l.map (adjW adj)).sum ≤ totalW adj := by
  induction adj with
  | nil =>
      intro l _
      have : l.map (adjW []) = l.map (fun _ => 0) := by
        apply List.map_congr_left
        intro x _
        rfl
      rw [this]
      simp [totalW]
  | cons kv rest ih =>
      obtain ⟨k0, lst⟩ := kv
      intro l hnd
      have htW : totalW ((k0, lst) :: rest) = (lst.map (·.2)).sum + totalW rest := by
        simp [totalW]
      have hget : ∀ x, adjGet ((k0, lst) :: rest) x =
          if k0 = x then lst else adjGet rest x := fun x => rfl
      have hW : ∀ x, x ≠ k0 → adjW ((k0, lst) :: rest) x = adjW rest x := by
        intro x hx
        unfold adjW
        rw [hget, if_neg (fun he => hx he.symm)]
      have hself : adjW ((k0, lst) :: rest) k0 = (lst.map (·.2)).sum := by
        unfold adjW
        rw [hget, if_pos rfl]
      by_cases hk : k0 ∈ l
      · obtain ⟨l₁, l₂, rfl⟩ := List.append_of_mem hk
        have hmid := List.nodup_middle.mp hnd
        have hk12 : k0 ∉ l₁ ++ l₂ := (List.nodup_cons.mp hmid).1
        have hnd' : (l₁ ++ l₂).Nodup := (List.nodup_cons.mp hmid).2
        have hmap1 : l₁.map (adjW ((k0, lst) :: rest)) = l₁.map (adjW rest) := by
          apply List.map_congr_left
          intro x hx
          exact hW x (fun he => hk12 (he ▸ List.mem_append.mpr (Or.inl hx)))
        have hmap2 : l₂.map (adjW ((k0, lst) :: rest)) = l₂.map (adjW rest) := by
          apply List.map_congr_left
          intro x hx
          exact hW x (fun he => hk12 (he ▸ List.mem_append.mpr (Or.inr hx)))
        rw [List.map_append, List.map_cons, List.sum_append, List.sum_cons,
          hmap1, hmap2, hself, htW]
        have hih := ih (l₁ ++ l₂) hnd'
        rw [List.map_append, List.sum_append] at hih
        omega
      · have hmap : l.map (adjW ((k0, lst) :: rest)) = l.map (adjW rest) := by
          apply List.map_congr_left
          intro x hx
          exact hW x (fun he => hk (he ▸ hx))
        rw [hmap, htW]
        exact le_trans (ih l hnd) (Nat.le_add_left _ _)

/-- An anchored witness walk for a finite Dijkstra distance, stored in
reverse (current node first, `start` last): the walk is duplicate-free, its
cost is the claimed distance, and every node on it has a current distance
bounded by its prefix cost. -/
inductive RWit (adj : Adj) (dist : String → Option Nat) (start : String) :
    String → Nat → List String → Prop
  | base : RWit adj dist start start 0 [start]
  | step {u : String} {du : Nat} {p : List String} {v : String} {w : Nat} :
      RWit adj dist start u du p → (v, w) ∈ adjGet adj u →
      leD (dist v) (du + w) → v ∉ p → RWit adj dist start v (du + w) (v :: p)

theorem rwit_shape {adj : Adj} {dist : String → Option Nat} {start v : String}
    {d : Nat} {p : List String} (h : RWit adj dist start v d p) :
    ∃ q, p = v :: q := by
  cases h with
  | base => exact ⟨[], rfl⟩
  | step _ _ _ _ => exact ⟨_, rfl⟩

theorem rwit_nodup {adj : Adj} {dist : String → Option Nat} {start v : String}
    {d : Nat} {p : List String} (h : RWit adj dist start v d p) : p.Nodup := by
  induction h with
  | base => exact List.nodup_singleton start
  | step _ _ _ hnm ih => exact List.nodup_cons.mpr ⟨hnm, ih⟩

theorem rwit_mem_le {adj : Adj} {dist : String → Option Nat} {start v : String}
    {d : Nat} {p : List String} (h : RWit adj dist start v d p)
    (h0 : dist start = some 0) : ∀ x ∈ p, leD (dist x) d := by
  induction h with
  | base =>
      intro x hx
      have : x = start := by simpa using hx
      subst this
      exact ⟨0, h0, le_refl 0⟩
  | step _ _ hle _ ih =>
      intro x hx
      rcases List.mem_cons.mp hx with hx | hx
      · subst hx
        exact hle
      · exact leD_mono (ih x hx) (Nat.le_add_right _ _)

/-- Pointwise refinement of distance maps: wherever the old map is finite,
the new one is finite and no larger. -/
def DistMono (d' d : String → Option Nat) : Prop :=
  ∀ v x, d v = some x → ∃ y, d' v = some y ∧ y ≤ x

theorem distMono_refl (d : String → Option Nat) : DistMono d d :=
  fun _ x hx => ⟨x, hx, le_refl x⟩

theorem leD_of_distMono {d' d : String → Option Nat} {v : String} {c : Nat}
    (hm : DistMono d' d) (h : leD (d v) c) : leD (d' v) c := by
  obtain ⟨x, hx, hxc⟩ := h
  obtain ⟨y, hy, hyx⟩ := hm v x hx
  exact ⟨y, hy, le_trans hyx hxc⟩

theorem rwit_mono {adj : Adj} {dist dist' : String → Option Nat}
    {start v : String} {d : Nat} {p : List String}
    (hm : DistMono dist' dist) (h : RWit adj dist start v d p) :
    RWit adj dist' start v d p := by
  induction h with
  | base => exact RWit.base
  | step _ he hle hnm ih => exact RWit.step ih he (leD_of_distMono hm hle) hnm

theorem rwit_cost_le {adj : Adj} {dist : String → Option Nat} {start v : String}
    {d : Nat} {p : List String} (h : RWit adj dist start v d p) :
    d ≤ (p.tail.map (adjW adj)).sum := by
  induction h with
  | base => simp
  | step hw he hle hnm ih =>
      rename_i u du p' v' w'
      obtain ⟨q, hq⟩ := rwit_shape hw
      have hwle : w' ≤ adjW adj u := mem_weight_le_adjW he
      have hsum : (p'.map (adjW adj)).sum = adjW adj u + (q.map (adjW adj)).sum := by
        rw [hq]
        simp
      simp only [List.tail_cons]
      rw [hsum]
      have hq' : p'.tail = q := by rw [hq]; rfl
      rw [hq'] at ih
      omega

/-- Every witnessed distance is bounded by the total adjacency weight. -/
theorem rwit_cost_le_totalW {adj : Adj} {dist : String → Option Nat}
    {start v : String} {d : Nat} {p : List String}
    (h : RWit adj dist start v d p) : d ≤ totalW adj := by
  have hnd : p.Nodup := rwit_nodup h
  have htail : p.tail.Nodup := (List.tail_sublist p).nodup hnd
  exact le_trans (rwit_cost_le h) (sum_adjW_le adj p.tail htail)

/-- The forward walk extracted from a reversed witness. -/
theorem rwit_to_walk {adj : Adj} {dist : String → Option Nat} {start v : String}
    {d : Nat} {p : List String} (h : RWit adj dist start v d p) :
    IsWalk adj p.reverse d ∧ p.reverse.head? = some start ∧
      p.reverse.getLast? = some v := by
  induction h with
  | base => exact ⟨IsWalk.single start, rfl, rfl⟩
  | step hw he hle hnm ih =>
      rename_i u du p' v' w'
      obtain ⟨hwalk, hhead, hlast⟩ := ih
      refine ⟨?_, ?_, ?_⟩
      · simpa using isWalk_snoc hwalk hlast he
      · rw [List.reverse_cons]
        cases hrev : p'.reverse with
        | nil =>
            rw [hrev] at hhead
            simp at hhead
        | cons y ys =>
            rw [hrev] at hhead
            simpa using hhead
      · rw [List.reverse_cons]
        simp

/-! ### Priority-queue order lemmas -/

theorem charListLe_refl : ∀ l : List Char, charListLe l l := by
  intro l
  induction l with
  | nil => rfl
  | cons a as ih => simp [charListLe, ih]

theorem charListLe_trans :
    ∀ l1 l2 l3 : List Char, charListLe l1 l2 → charListLe l2 l3 → charListLe l1 l3 := by
  intro l1
  induction l1 with
  | nil => intro l2 l3 _ _; rfl
  | cons a as ih =>
      intro l2 l3 h12 h23
      cases l2 with
      | nil => simp [charListLe] at h12
      | cons b bs =>
          cases l3 with
          | nil => simp [charListLe] at h23
          | cons c cs =>
              rcases Nat.lt_trichotomy a.toNat b.toNat with hab | hab | hab
              · rcases Nat.lt_trichotomy b.toNat c.toNat with hbc | hbc | hbc
                · simp [charListLe, lt_trans hab hbc]
                · simp [charListLe, hbc ▸ hab]
                · simp [charListLe, Nat.lt_asymm hbc, hbc] at h23
              · rcases Nat.lt_trichotomy b.toNat c.toNat with hbc | hbc | hbc
                · simp [charListLe, hab ▸ hbc]
                · have hac : a.toNat = c.toNat := hab.trans hbc
                  simp only [charListLe, hab, lt_irrefl, if_false] at h12
                  simp only [charListLe, hbc, lt_irrefl, if_false] at h23
                  simp only [charListLe, hac, lt_irrefl, if_false]
                  exact ih bs cs h12 h23
                · simp [charListLe, Nat.lt_asymm hbc, hbc] at h23
              · simp [charListLe, Nat.lt_asymm hab, hab] at h12

theorem strLe_refl (a : String) : strLe a a := charListLe_refl a.toList

theorem strLe_trans {a b c : String} (h1 : strLe a b) (h2 : strLe b c) :
    strLe a c := charListLe_trans a.toList b.toList c.toList h1 h2

theorem entryLe_refl (a : Nat × String) : entryLe a a := by
  simp [entryLe, strLe_refl]

theorem entryLe_total (a b : Nat × String) : entryLe a b ∨ entryLe b a := by
  rcases Nat.lt_trichotomy a.1 b.1 with h | h | h
  · left; simp [entryLe, h]
  · rcases strLe_total a.2 b.2 with hs | hs
    · left; simp [entryLe, h, hs]
    · right; simp [entryLe, h.symm, hs]
  · right; simp [entryLe, h]

theorem entryLe_trans {a b c : Nat × String} (h1 : entryLe a b)
    (h2 : entryLe b c) : entryLe a c := by
  simp only [entryLe, Bool.or_eq_true, Bool.and_eq_true, decide_eq_true_eq] at h1 h2 ⊢
  rcases h1 with h1 | ⟨h1e, h1s⟩ <;> rcases h2 with h2 | ⟨h2e, h2s⟩
  · exact Or.inl (lt_trans h1 h2)
  · exact Or.inl (h2e ▸ h1)
  · exact Or.inl (h1e ▸ h2)
  · exact Or.inr ⟨h1e.trans h2e, strLe_trans h1s h2s⟩

theorem entryLe_fst {a b : Nat × String} (h : entryLe a b) : a.1 ≤ b.1 := by
  simp only [entryLe, Bool.or_eq_true, Bool.and_eq_true, decide_eq_true_eq] at h
  rcases h with h | ⟨h, _⟩
  · exact le_of_lt h
  · exact le_of_eq h

theorem minEntry_spec :
    ∀ (rest : List (Nat × String)) (e : Nat × String),
      minEntry e rest ∈ e :: rest ∧ ∀ x ∈ e :: rest, entryLe (minEntry e rest) x := by
  intro rest
  induction rest with
  | nil =>
      intro e
      refine ⟨by simp [minEntry], ?_⟩
      intro x hx
      have : x = e := by simpa using hx
      subst this
      exact entryLe_refl x
  | cons y ys ih =>
      intro e
      have hme : minEntry e (y :: ys) = minEntry (if entryLe e y then e else y) ys := by
        unfold minEntry
        rw [List.foldl_cons]
      by_cases hey : entryLe e y
      · rw [if_pos hey] at hme
        obtain ⟨hmem, hle⟩ := ih e
        have hmine : entryLe (minEntry e ys) e := hle e (List.mem_cons.mpr (Or.inl rfl))
        constructor
        · rw [hme]
          rcases List.mem_cons.mp hmem with h | h
          · simp [h]
          · simp [h]
        · intro x hx
          rw [hme]
          rcases List.mem_cons.mp hx with hx | hx
          · rw [hx]
            exact hmine
          · rcases List.mem_cons.mp hx with hx | hx
            · rw [hx]
              exact entryLe_trans hmine hey
            · exact hle x (List.mem_cons.mpr (Or.inr hx))
      · rw [if_neg hey] at hme
        obtain ⟨hmem, hle⟩ := ih y
        have hye : entryLe y e := (entryLe_total e y).resolve_left hey
        have hmine : entryLe (minEntry y ys) y := hle y (List.mem_cons.mpr (Or.inl rfl))
        constructor
        · rw [hme]
          rcases List.mem_cons.mp hmem with h | h
          · simp [h]
          · simp [h]
        · intro x hx
          rw [hme]
          rcases List.mem_cons.mp hx with hx | hx
          · rw [hx]
            exact entryLe_trans hmine hye
          · rcases List.mem_cons.mp hx with hx | hx
            · rw [hx]
              exact hmine
            · exact hle x (List.mem_cons.mpr (Or.inr hx))

theorem popMin_fst_mem (e : Nat × String) (rest : List (Nat × String)) :
    (popMin e rest).1 ∈ e :: rest := (minEntry_spec rest e).1

theorem popMin_fst_le (e : Nat × String) (rest : List (Nat × String)) :
    ∀ x ∈ e :: rest, entryLe (popMin e rest).1 x := (minEntry_spec rest e).2

theorem popMin_length (e : Nat × String) (rest : List (Nat × String)) :
    (popMin e rest).2.length + 1 = (e :: rest).length := by
  show ((e :: rest).erase (minEntry e rest)).length + 1 = (e :: rest).length
  rw [List.length_erase_of_mem (minEntry_spec rest e).1]
  have : (e :: rest).length = rest.length + 1 := rfl
  omega

theorem popMin_mem_of_ne {e : Nat × String} {rest : List (Nat × String)}
    {x : Nat × String} (hx : x ∈ e :: rest) (hne : x ≠ (popMin e rest).1) :
    x ∈ (popMin e rest).2 := by
  show x ∈ (e :: rest).erase (minEntry e rest)
  exact (List.mem_erase_of_ne hne).mpr hx

theorem popMin_subset (e : Nat × String) (rest : List (Nat × String)) :
    ∀ x ∈ (popMin e rest).2, x ∈ e :: rest := by
  intro x hx
  have hx' : x ∈ (e :: rest).erase (minEntry e rest) := hx
  exact List.mem_of_mem_erase hx'

/-! ### Dijkstra loop invariants -/

/-- Queue-independent part of the Dijkstra loop invariant: the facts about
`dist` and `prev` needed for path reconstruction and soundness. -/
structure DInvCore (adj : Adj) (start : String) (s : DState) : Prop where
  startDist : s.dist start = some 0
  startPrev : s.prev start = none
  links : ∃ tie : String → Nat, ∀ v u, s.prev v = some u →
    ∃ w du dv, (v, w) ∈ adjGet adj u ∧ s.dist u = some du ∧ s.dist v = some dv ∧
      du + w ≤ dv ∧ (du < dv ∨ tie u < tie v)
  wit : ∀ v d, s.dist v = some d → ∃ p, RWit adj s.dist start v d p
  prevSome : ∀ v d, s.dist v = some d → v = start ∨ ∃ u, s.prev v = some u
  noneNoPrev : ∀ v, s.dist v = none → s.prev v = none

/-- The frontier property at one node: either the queue still holds an entry
for it at or below its current distance, or all its outgoing edges have been
relaxed. -/
def FrontierAt (adj : Adj) (s : DState) (x : String) : Prop :=
  ∀ dx, s.dist x = some dx →
    (∃ e, (e, x) ∈ s.pq ∧ e ≤ dx) ∨
    (∀ vw ∈ adjGet adj x, leD (s.dist vw.1) (dx + vw.2))

theorem sum_map_le_of_pointwise {α : Type} (l : List α) (f f' : α → Nat)
    (hle : ∀ x ∈ l, f' x ≤ f x) : (l.map f').sum ≤ (l.map f).sum := by
  induction l with
  | nil => simp
  | cons a rest ih =>
      simp only [List.map_cons, List.sum_cons]
      have ha : f' a ≤ f a := hle a (List.mem_cons.mpr (Or.inl rfl))
      have := ih (fun x hx => hle x (List.mem_cons.mpr (Or.inr hx)))
      omega

theorem sum_map_lt_of_pointwise {α : Type} (l : List α) (f f' : α → Nat)
    (hle : ∀ x ∈ l, f' x ≤ f x) (v : α) (hv : v ∈ l) (hlt : f' v < f v) :
    (l.map f').sum < (l.map f).sum := by
  induction l with
  | nil => simp at hv
  | cons a rest ih =>
      simp only [List.map_cons, List.sum_cons]
      rcases List.mem_cons.mp hv with hv | hv
      · rw [hv] at hlt
        have hsum := sum_map_le_of_pointwise rest f f'
          (fun x hx => hle x (List.mem_cons.mpr (Or.inr hx)))
        omega
      · have ha : f' a ≤ f a := hle a (List.mem_cons.mpr (Or.inl rfl))
        have := ih (fun x hx => hle x (List.mem_cons.mpr (Or.inr hx))) hv
        omega

theorem relaxOne_skip_eq (u : String) (d : Nat) (s : DState) (vw : String × Nat)
    (h : ltD (d + vw.2) (s.dist vw.1) = false) : relaxOne u d s vw = s := by
  unfold relaxOne
  simp only [h]
  rfl

theorem relaxOne_fire_eq (u : String) (d : Nat) (s : DState) (vw : String × Nat)
    (h : ltD (d + vw.2) (s.dist vw.1) = true) :
    relaxOne u d s vw =
      { dist := fun x => if x = vw.1 then some (d + vw.2) else s.dist x
        prev := fun x => if x = vw.1 then some u else s.prev x
        pq := s.pq ++ [(d + vw.2, vw.1)] } := by
  unfold relaxOne
  simp only [h]
  rfl

/-- All facts preserved or established by one relaxation step. -/
theorem relaxOne_spec (adj : Adj) (start u : String) (d : Nat) (s : DState)
    (vw : String × Nat) (hadj : AdjInv adj) (hedge : vw ∈ adjGet adj u)
    (hcore : DInvCore adj start s) (hd : s.dist u = some d)
    (hpq : ∀ e ∈ s.pq, leD (s.dist e.2) e.1) :
    DInvCore adj start (relaxOne u d s vw) ∧
    (relaxOne u d s vw).dist u = some d ∧
    (∀ e ∈ s.pq, e ∈ (relaxOne u d s vw).pq) ∧
    (∀ e ∈ (relaxOne u d s vw).pq, leD ((relaxOne u d s vw).dist e.2) e.1) ∧
    DistMono (relaxOne u d s vw).dist s.dist ∧
    leD ((relaxOne u d s vw).dist vw.1) (d + vw.2) ∧
    (∀ x, x ≠ u → FrontierAt adj s x → FrontierAt adj (relaxOne u d s vw) x) ∧
    potential adj (relaxOne u d s vw) ≤ potential adj s := by
  obtain ⟨v, w⟩ := vw
  by_cases hface : ltD (d + w) (s.dist v) = true
  · -- the relaxation fires
    rw [relaxOne_fire_eq u d s (v, w) hface]
    set nd := d + w with hnd
    set s' : DState :=
      { dist := fun x => if x = v then some nd else s.dist x
        prev := fun x => if x = v then some u else s.prev x
        pq := s.pq ++ [(nd, v)] } with hs'
    have hdist' : ∀ x, s'.dist x = if x = v then some nd else s.dist x := fun x => rfl
    have hprev' : ∀ x, s'.prev x = if x = v then some u else s.prev x := fun x => rfl
    have hfire : ∀ dv0, s.dist v = some dv0 → nd < dv0 := by
      intro dv0 h0
      rw [h0] at hface
      simpa [ltD] using hface
    have hvu : v ≠ u := by
      intro he
      rw [he] at hface
      rw [hd] at hface
      simp [ltD, hnd] at hface
    have hvstart : v ≠ start := by
      intro he
      rw [he] at hface
      rw [hcore.startDist] at hface
      simp [ltD] at hface
    have dm : DistMono s'.dist s.dist := by
      intro z x0 hz
      by_cases hzv : z = v
      · subst hzv
        have := hfire x0 hz
        exact ⟨nd, by rw [hdist', if_pos rfl], le_of_lt this⟩
      · exact ⟨x0, by rw [hdist', if_neg hzv]; exact hz, le_refl x0⟩
    have hdv' : s'.dist v = some nd := by rw [hdist', if_pos rfl]
    have hdu' : s'.dist u = some d := by
      rw [hdist', if_neg (Ne.symm hvu)]
      exact hd
    -- the fresh witness for v
    obtain ⟨pu, hpu⟩ := hcore.wit u d hd
    have hnotin : v ∉ pu := by
      intro hmem
      obtain ⟨dv0, h0, hle0⟩ := rwit_mem_le hpu hcore.startDist v hmem
      have := hfire dv0 h0
      omega
    have hwitv : RWit adj s'.dist start v nd (v :: pu) :=
      RWit.step (rwit_mono dm hpu) hedge ⟨nd, hdv', le_refl nd⟩ hnotin
    have hndW : nd ≤ totalW adj := rwit_cost_le_totalW hwitv
    have hvkeys : v ∈ adjKeys adj :=
      (adjHas_iff_mem_keys adj v).mp (hadj.2 u v w hedge).2.2
    refine ⟨?_, hdu', ?_, ?_, dm, ⟨nd, hdv', le_refl nd⟩, ?_, ?_⟩
    · -- DInvCore s'
      obtain ⟨tie, htie⟩ := hcore.links
      refine ⟨?_, ?_, ?_, ?_, ?_, ?_⟩
      · rw [hdist', if_neg (Ne.symm hvstart)]
        exact hcore.startDist
      · rw [hprev', if_neg (Ne.symm hvstart)]
        exact hcore.startPrev
      · refine ⟨fun x => if x = v then tie u + 1 else tie x, ?_⟩
        intro x y hxy
        rw [hprev'] at hxy
        by_cases hx : x = v
        · rw [if_pos hx] at hxy
          have hyu : y = u := (Option.some.inj hxy).symm
          rw [hx, hyu]
          refine ⟨w, d, nd, hedge, ?_, hdv', le_refl nd, ?_⟩
          · rw [hdist', if_neg (Ne.symm hvu)]
            exact hd
          · rcases Nat.lt_or_ge d nd with h | h
            · exact Or.inl h
            · right
              show (if u = v then tie u + 1 else tie u) <
                (if v = v then tie u + 1 else tie v)
              rw [if_neg (Ne.symm hvu), if_pos rfl]
              omega
        · rw [if_neg hx] at hxy
          obtain ⟨w', du', dv', he', hdu2, hdv2, hle2, hstrict2⟩ := htie x y hxy
          by_cases hy : y = v
          · rw [hy] at hdu2 he'
            have hlt : nd < du' := hfire du' hdu2
            rw [hy]
            refine ⟨w', nd, dv', he', hdv', ?_, ?_, ?_⟩
            · rw [hdist', if_neg hx]
              exact hdv2
            · omega
            · exact Or.inl (by omega)
          · refine ⟨w', du', dv', he', ?_, ?_, hle2, ?_⟩
            · rw [hdist', if_neg hy]
              exact hdu2
            · rw [hdist', if_neg hx]
              exact hdv2
            · rcases hstrict2 with h | h
              · exact Or.inl h
              · right
                show (if y = v then tie u + 1 else tie y) <
                  (if x = v then tie u + 1 else tie x)
                rw [if_neg hy, if_neg hx]
                exact h
      · intro z dz hz
        by_cases hzv : z = v
        · rw [hzv, hdv'] at hz
          have hdz : dz = nd := (Option.some.inj hz).symm
          rw [hzv, hdz]
          exact ⟨v :: pu, hwitv⟩
        · rw [hdist', if_neg hzv] at hz
          obtain ⟨p0, hp0⟩ := hcore.wit z dz hz
          exact ⟨p0, rwit_mono dm hp0⟩
      · intro z dz hz
        by_cases hzv : z = v
        · exact Or.inr ⟨u, by rw [hprev', if_pos hzv]⟩
        · rw [hdist', if_neg hzv] at hz
          rcases hcore.prevSome z dz hz with h | ⟨y, hy⟩
          · exact Or.inl h
          · exact Or.inr ⟨y, by rw [hprev', if_neg hzv]; exact hy⟩
      · intro z hz
        by_cases hzv : z = v
        · rw [hzv, hdv'] at hz
          simp at hz
        · rw [hdist', if_neg hzv] at hz
          rw [hprev', if_neg hzv]
          exact hcore.noneNoPrev z hz
    · intro e he
      show e ∈ s.pq ++ [(nd, v)]
      exact List.mem_append.mpr (Or.inl he)
    · intro e he
      rcases List.mem_append.mp he with he | he
      · exact leD_of_distMono dm (hpq e he)
      · have : e = (nd, v) := by simpa using he
        subst this
        exact ⟨nd, hdv', le_refl nd⟩
    · intro x hxu hfx
      intro dx hdx
      by_cases hx : x = v
      · rw [hx, hdv'] at hdx
        have hdx' : dx = nd := (Option.some.inj hdx).symm
        rw [hx, hdx']
        exact Or.inl ⟨nd, List.mem_append.mpr (Or.inr (by simp)), le_refl nd⟩
      · rw [hdist', if_neg hx] at hdx
        rcases hfx dx hdx with ⟨e0, he0, hle0⟩ | h2
        · exact Or.inl ⟨e0, List.mem_append.mpr (Or.inl he0), hle0⟩
        · right
          intro vw' hvw'
          exact leD_of_distMono dm (h2 vw' hvw')
    · -- potential decreases (weakly)
      unfold potential
      have hlen : s'.pq.length = s.pq.length + 1 := by
        show (s.pq ++ [(nd, v)]).length = s.pq.length + 1
        simp
      have hple : ∀ z ∈ adjKeys adj,
          capD (totalW adj) (s'.dist z) ≤ capD (totalW adj) (s.dist z) := by
        intro z _
        by_cases hzv : z = v
        · rw [hzv, hdv']
          cases h0 : s.dist v with
          | none => simp only [capD]; omega
          | some dv0 =>
              have := hfire dv0 h0
              simp only [capD]
              omega
        · rw [hdist', if_neg hzv]
      have hplt : capD (totalW adj) (s'.dist v) < capD (totalW adj) (s.dist v) := by
        rw [hdv']
        cases h0 : s.dist v with
        | none =>
            simp only [capD]
            omega
        | some dv0 =>
            have := hfire dv0 h0
            simp only [capD]
            omega
      have hsum := sum_map_lt_of_pointwise (adjKeys adj)
        (fun z => capD (totalW adj) (s.dist z)) (fun z => capD (totalW adj) (s'.dist z))
        hple v hvkeys hplt
      have hmul : (totalW adj + 1) *
          ((adjKeys adj).map (fun z => capD (totalW adj) (s'.dist z))).sum +
            (totalW adj + 1) ≤ (totalW adj + 1) *
          ((adjKeys adj).map (fun z => capD (totalW adj) (s.dist z))).sum := by
        have h1 : ((adjKeys adj).map (fun z => capD (totalW adj) (s'.dist z))).sum + 1 ≤
            ((adjKeys adj).map (fun z => capD (totalW adj) (s.dist z))).sum := hsum
        calc (totalW adj + 1) *
            ((adjKeys adj).map (fun z => capD (totalW adj) (s'.dist z))).sum +
              (totalW adj + 1)
            = (totalW adj + 1) *
              (((adjKeys adj).map (fun z => capD (totalW adj) (s'.dist z))).sum + 1) := by
              ring
          _ ≤ (totalW adj + 1) *
              ((adjKeys adj).map (fun z => capD (totalW adj) (s.dist z))).sum :=
              Nat.mul_le_mul_left _ h1
      rw [hlen]
      omega
  · -- the relaxation does not fire: the state is unchanged
    have heq := relaxOne_skip_eq u d s (v, w) (by
      cases h : ltD (d + w) (s.dist v)
      · rfl
      · exact absurd h hface)
    rw [heq]
    have hleD : leD (s.dist v) (d + w) := by
      cases h0 : s.dist v with
      | none =>
          rw [h0] at hface
          simp [ltD] at hface
      | some dv0 =>
          rw [h0] at hface
          simp only [ltD, decide_eq_true_eq] at hface
          exact ⟨dv0, rfl, by omega⟩
    exact ⟨hcore, hd, fun e he => he, hpq, distMono_refl s.dist, hleD,
      fun x _ hfx => hfx, le_refl _⟩

theorem distMono_trans {a b c : String → Option Nat}
    (h1 : DistMono a b) (h2 : DistMono b c) : DistMono a c := by
  intro v x hx
  obtain ⟨y, hy, hyx⟩ := h2 v x hx
  obtain ⟨z, hz, hzy⟩ := h1 v y hy
  exact ⟨z, hz, le_trans hzy hyx⟩

/-- `DInvCore` does not mention the queue. -/
theorem dinvcore_pq_irrel {adj : Adj} {start : String} {s : DState}
    (h : DInvCore adj start s) (q : List (Nat × String)) :
    DInvCore adj start { s with pq := q } :=
  ⟨h.startDist, h.startPrev, h.links, h.wit, h.prevSome, h.noneNoPrev⟩

/-- Combined effect of the relaxation fold of one non-stale, non-final
Dijkstra iteration. -/
theorem relaxAll_fold_spec (adj : Adj) (start u : String) (d : Nat)
    (hadj : AdjInv adj) :
    ∀ (l : List (String × Nat)) (s : DState),
      (∀ vw ∈ l, vw ∈ adjGet adj u) →
      DInvCore adj start s → s.dist u = some d →
      (∀ e ∈ s.pq, leD (s.dist e.2) e.1) →
      (∀ x, x ≠ u → FrontierAt adj s x) →
      DInvCore adj start (l.foldl (relaxOne u d) s) ∧
      (l.foldl (relaxOne u d) s).dist u = some d ∧
      (∀ e ∈ (l.foldl (relaxOne u d) s).pq,
        leD ((l.foldl (relaxOne u d) s).dist e.2) e.1) ∧
      (∀ x, x ≠ u → FrontierAt adj (l.foldl (relaxOne u d) s) x) ∧
      (∀ vw ∈ l, leD ((l.foldl (relaxOne u d) s).dist vw.1) (d + vw.2)) ∧
      DistMono (l.foldl (relaxOne u d) s).dist s.dist ∧
      potential adj (l.foldl (relaxOne u d) s) ≤ potential adj s := by
  intro l
  induction l with
  | nil =>
      intro s _ hcore hd hpq hfr
      exact ⟨hcore, hd, hpq, hfr, by simp, distMono_refl s.dist, le_refl _⟩
  | cons vw l ih =>
      intro s hl hcore hd hpq hfr
      obtain ⟨c1, c2, c3, c4, c5, c6, c7, c8⟩ :=
        relaxOne_spec adj start u d s vw hadj
          (hl vw (List.mem_cons.mpr (Or.inl rfl))) hcore hd hpq
      have hfr1 : ∀ x, x ≠ u → FrontierAt adj (relaxOne u d s vw) x :=
        fun x hx => c7 x hx (hfr x hx)
      obtain ⟨d1, d2, d3, d4, d5, d6, d7⟩ :=
        ih (relaxOne u d s vw)
          (fun x hx => hl x (List.mem_cons.mpr (Or.inr hx))) c1 c2 c4 hfr1
      rw [List.foldl_cons]
      refine ⟨d1, d2, d3, d4, ?_, distMono_trans d6 c5, le_trans d7 c8⟩
      intro vw' hvw'
      rcases List.mem_cons.mp hvw' with hvw' | hvw'
      · rw [hvw']
        exact leD_of_distMono d6 c6
      · exact d5 vw' hvw'

/-- The path-crossing lemma: along any walk, either the endpoint's distance
is already good, or the queue holds an entry bounded by the walk cost. -/
theorem dijkstra_cover (adj : Adj) (s : DState)
    (hfr : ∀ x, FrontierAt adj s x) :
    ∀ (p : List String) (c : Nat), IsWalk adj p c →
      ∀ (x : String) (dx : Nat), p.head? = some x → leD (s.dist x) dx →
      ∀ v, p.getLast? = some v →
      leD (s.dist v) (dx + c) ∨ ∃ e y, (e, y) ∈ s.pq ∧ e ≤ dx + c := by
  intro p c hwalk
  induction hwalk with
  | single z =>
      intro x dx hhead hx v hlast
      have hzx : z = x := by simpa using hhead
      have hzv : z = v := by simpa using hlast
      rw [← hzv, hzx]
      exact Or.inl (leD_mono hx (Nat.le_add_right dx 0))
  | cons he hrest ih =>
      rename_i a b w rest c'
      intro x dx hhead hx v hlast
      have hax : a = x := by simpa using hhead
      obtain ⟨da, hda, hdax⟩ := hx
      rw [← hax] at hda
      rcases hfr a da hda with ⟨e0, he0, hle0⟩ | h2
      · exact Or.inr ⟨e0, a, he0, by omega⟩
      · have hb : leD (s.dist b) (da + w) := h2 (b, w) he
        have hb' : leD (s.dist b) (dx + w) := leD_mono hb (by omega)
        have hlast' : (b :: rest).getLast? = some v := by
          rw [List.getLast?_cons_cons] at hlast
          exact hlast
        rcases ih b (dx + w) rfl hb' v hlast' with h | ⟨e0, y, he0, hle0⟩
        · exact Or.inl (leD_mono h (by omega))
        · exact Or.inr ⟨e0, y, he0, by omega⟩

theorem dloop_succ_nil (adj : Adj) (endNode : String) (fuel : Nat) (s : DState)
    (hq : s.pq = []) : dloop adj endNode (fuel + 1) s = s := by
  obtain ⟨ds, ps, qs⟩ := s
  simp only at hq
  subst hq
  rfl

theorem dloop_succ_cons (adj : Adj) (endNode : String) (fuel : Nat) (s : DState)
    (e : Nat × String) (rest : List (Nat × String)) (hq : s.pq = e :: rest) :
    dloop adj endNode (fuel + 1) s =
      if gtD (popMin e rest).1.1 (s.dist (popMin e rest).1.2) then
        dloop adj endNode fuel { s with pq := (popMin e rest).2 }
      else if (popMin e rest).1.2 = endNode then { s with pq := (popMin e rest).2 }
      else dloop adj endNode fuel
        (relaxAll adj (popMin e rest).1.2 (popMin e rest).1.1
          { s with pq := (popMin e rest).2 }) := by
  obtain ⟨ds, ps, qs⟩ := s
  simp only at hq
  subst hq
  rfl

/-- Running the Dijkstra loop with enough fuel preserves the core invariant
and makes the end node's distance a lower bound of every walk cost. -/
theorem dloop_spec (adj : Adj) (start endNode : String) (hadj : AdjInv adj) :
    ∀ (fuel : Nat) (s : DState),
      DInvCore adj start s →
      (∀ e ∈ s.pq, leD (s.dist e.2) e.1) →
      (∀ x, FrontierAt adj s x) →
      potential adj s < fuel →
      DInvCore adj start (dloop adj endNode fuel s) ∧
      ∀ (p : List String) (c : Nat), IsWalk adj p c → p.head? = some start →
        p.getLast? = some endNode →
        leD ((dloop adj endNode fuel s).dist endNode) c := by
  intro fuel
  induction fuel with
  | zero => intro s _ _ _ hm; omega
  | succ fuel ih =>
      intro s hcore hpq hfr hm
      match hq : s.pq with
      | [] =>
          rw [dloop_succ_nil adj endNode fuel s hq]
          refine ⟨hcore, ?_⟩
          intro p c hwalk hhead hlast
          rcases dijkstra_cover adj s hfr p c hwalk start 0 hhead
              ⟨0, hcore.startDist, le_refl 0⟩ endNode hlast with h | ⟨e0, y, he0, _⟩
          · simpa using h
          · rw [hq] at he0
            simp at he0
      | e :: rest =>
          have hmm : (popMin e rest).1 ∈ s.pq := by
            rw [hq]
            exact popMin_fst_mem e rest
          have hpots : potential adj { s with pq := (popMin e rest).2 } + 1 =
              potential adj s := by
            unfold potential
            have := popMin_length e rest
            rw [hq]
            simp only
            omega
          have hpq' : ∀ x ∈ (popMin e rest).2, x ∈ s.pq := by
            rw [hq]
            exact popMin_subset e rest
          have hpqd' : ∀ x ∈ (popMin e rest).2,
              leD (s.dist x.2) x.1 := fun x hx => hpq x (hpq' x hx)
          by_cases hstale : gtD (popMin e rest).1.1 (s.dist (popMin e rest).1.2) = true
          · -- stale entry: skip
            have hres : dloop adj endNode (fuel + 1) s =
                dloop adj endNode fuel { s with pq := (popMin e rest).2 } := by
              rw [dloop_succ_cons adj endNode fuel s e rest hq, if_pos hstale]
            rw [hres]
            have hdu : ∃ du0, s.dist (popMin e rest).1.2 = some du0 ∧
                du0 < (popMin e rest).1.1 := by
              cases h0 : s.dist (popMin e rest).1.2 with
              | none => rw [h0] at hstale; simp [gtD] at hstale
              | some du0 =>
                  rw [h0] at hstale
                  simp only [gtD, decide_eq_true_eq] at hstale
                  exact ⟨du0, rfl, hstale⟩
            obtain ⟨du0, hdu0, hlt0⟩ := hdu
            have hfr' : ∀ x, FrontierAt adj { s with pq := (popMin e rest).2 } x := by
              intro x dx hdx
              rcases hfr x dx hdx with ⟨e0, he0, hle0⟩ | h2
              · left
                refine ⟨e0, ?_, hle0⟩
                show (e0, x) ∈ (popMin e rest).2
                refine popMin_mem_of_ne (by rw [← hq]; exact he0) ?_
                intro heq
                have hx2 : x = (popMin e rest).1.2 := congrArg Prod.snd heq
                have he1 : e0 = (popMin e rest).1.1 := congrArg Prod.fst heq
                rw [hx2] at hdx
                rw [hdx] at hdu0
                have : dx = du0 := Option.some.inj hdu0
                omega
              · exact Or.inr h2
            exact ih { s with pq := (popMin e rest).2 }
              (dinvcore_pq_irrel hcore _) hpqd' hfr' (by omega)
          · have hdu : s.dist (popMin e rest).1.2 = some (popMin e rest).1.1 := by
              obtain ⟨du0, hdu0, hle0⟩ := hpq (popMin e rest).1 hmm
              cases h0 : s.dist (popMin e rest).1.2 with
              | none => rw [h0] at hdu0; exact absurd hdu0 (by simp)
              | some du1 =>
                  rw [h0] at hdu0
                  have h1 : du1 = du0 := Option.some.inj hdu0
                  rw [h0] at hstale
                  simp only [gtD, decide_eq_true_eq] at hstale
                  have : du1 = (popMin e rest).1.1 := by omega
                  rw [this]
            by_cases hend : (popMin e rest).1.2 = endNode
            · -- the end node is popped: break
              have hres : dloop adj endNode (fuel + 1) s =
                  { s with pq := (popMin e rest).2 } := by
                rw [dloop_succ_cons adj endNode fuel s e rest hq, if_neg hstale,
                  if_pos hend]
              rw [hres]
              refine ⟨dinvcore_pq_irrel hcore _, ?_⟩
              intro p c hwalk hhead hlast
              rcases dijkstra_cover adj s hfr p c hwalk start 0 hhead
                  ⟨0, hcore.startDist, le_refl 0⟩ endNode hlast with h | ⟨e0, y, he0, hle0⟩
              · simpa using h
              · have hminle : entryLe (popMin e rest).1 (e0, y) := by
                  apply popMin_fst_le
                  rw [← hq]
                  exact he0
                have hfst := entryLe_fst hminle
                rw [hend] at hdu
                exact ⟨(popMin e rest).1.1, hdu, by simpa using by omega⟩
            · -- relax all neighbors and continue
              have hfr' : ∀ x, x ≠ (popMin e rest).1.2 →
                  FrontierAt adj { s with pq := (popMin e rest).2 } x := by
                intro x hxu dx hdx
                rcases hfr x dx hdx with ⟨e0, he0, hle0⟩ | h2
                · left
                  refine ⟨e0, ?_, hle0⟩
                  show (e0, x) ∈ (popMin e rest).2
                  refine popMin_mem_of_ne (by rw [← hq]; exact he0) ?_
                  intro heq
                  exact hxu (congrArg Prod.snd heq)
                · exact Or.inr h2
              obtain ⟨r1, r2, r3, r4, r5, r6, r7⟩ :=
                relaxAll_fold_spec adj start (popMin e rest).1.2 (popMin e rest).1.1
                  hadj (adjGet adj (popMin e rest).1.2)
                  { s with pq := (popMin e rest).2 }
                  (fun vw hvw => hvw) (dinvcore_pq_irrel hcore _) hdu hpqd' hfr'
              have hfrAll : ∀ x, FrontierAt adj
                  ((adjGet adj (popMin e rest).1.2).foldl
                    (relaxOne (popMin e rest).1.2 (popMin e rest).1.1)
                    { s with pq := (popMin e rest).2 }) x := by
                intro x
                by_cases hxu : x = (popMin e rest).1.2
                · intro dx hdx
                  rw [hxu] at hdx
                  rw [r2] at hdx
                  have hdx' : dx = (popMin e rest).1.1 := (Option.some.inj hdx).symm
                  right
                  intro vw hvw
                  rw [hxu] at hvw
                  rw [hdx']
                  exact r5 vw hvw
                · exact r4 x hxu
              have hres : dloop adj endNode (fuel + 1) s =
                  dloop adj endNode fuel
                    ((adjGet adj (popMin e rest).1.2).foldl
                      (relaxOne (popMin e rest).1.2 (popMin e rest).1.1)
                      { s with pq := (popMin e rest).2 }) := by
                rw [dloop_succ_cons adj endNode fuel s e rest hq, if_neg hstale,
                  if_neg hend]
                rfl
              rw [hres]
              exact ih _ r1 r3 hfrAll (by omega)

/-! ### Path reconstruction -/

/-- Strict rank order on nodes induced by the distance map and the tie
function of the link invariant; predecessor links always decrease it. -/
def rankLtB (dist : String → Option Nat) (tie : String → Nat) (x v : String) : Bool :=
  match dist x, dist v with
  | some a, some b => a < b || (a = b && tie x < tie v)
  | some _, none => true
  | none, _ => false

theorem rankLtB_irrefl (dist : String → Option Nat) (tie : String → Nat)
    (x : String) : rankLtB dist tie x x = false := by
  unfold rankLtB
  cases dist x <;> simp

theorem rankLtB_trans {dist : String → Option Nat} {tie : String → Nat}
    {x y z : String} (h1 : rankLtB dist tie x y = true)
    (h2 : rankLtB dist tie y z = true) : rankLtB dist tie x z = true := by
  unfold rankLtB at h1 h2 ⊢
  cases hx : dist x <;> cases hy : dist y <;> cases hz : dist z <;>
    rw [hx, hy] at h1 <;> rw [hy, hz] at h2 <;> simp_all <;> omega

/-- The number of adjacency keys strictly below a node in the rank order. -/
def downCount (adj : Adj) (dist : String → Option Nat) (tie : String → Nat)
    (v : String) : Nat :=
  ((adjKeys adj).filter (fun x => rankLtB dist tie x v)).length

theorem filter_length_le_of_imp {α : Type} (l : List α) (p q : α → Bool)
    (himp : ∀ x ∈ l, p x → q x) : (l.filter p).length ≤ (l.filter q).length := by
  induction l with
  | nil => simp
  | cons b rest ih =>
      have hrest := ih (fun x hx => himp x (List.mem_cons.mpr (Or.inr hx)))
      by_cases hb : p b = true
      · have hqb : q b = true := himp b (List.mem_cons.mpr (Or.inl rfl)) hb
        rw [List.filter_cons, List.filter_cons, if_pos hb, if_pos hqb]
        simpa using hrest
      · rw [List.filter_cons, List.filter_cons, if_neg hb]
        by_cases hqb : q b = true
        · rw [if_pos hqb]
          simp only [List.length_cons]
          omega
        · rw [if_neg hqb]
          exact hrest

theorem filter_length_lt {α : Type} (l : List α) (p q : α → Bool)
    (himp : ∀ x ∈ l, p x → q x) (a : α) (ha : a ∈ l) (hqa : q a)
    (hpa : p a = false) : (l.filter p).length < (l.filter q).length := by
  induction l with
  | nil => simp at ha
  | cons b rest ih =>
      have hrest := filter_length_le_of_imp rest p q
        (fun x hx => himp x (List.mem_cons.mpr (Or.inr hx)))
      rcases List.mem_cons.mp ha with hab | ha'
      · rw [← hab]
        rw [List.filter_cons, List.filter_cons, if_pos hqa,
          if_neg (by rw [hpa]; exact Bool.false_ne_true)]
        have := filter_length_le_of_imp rest p q
          (fun x hx => himp x (List.mem_cons.mpr (Or.inr hx)))
        simp only [List.length_cons]
        omega
      · have hlt := ih (fun x hx => himp x (List.mem_cons.mpr (Or.inr hx))) ha'
        by_cases hb : p b = true
        · have hqb : q b = true := himp b (List.mem_cons.mpr (Or.inl rfl)) hb
          rw [List.filter_cons, List.filter_cons, if_pos hb, if_pos hqb]
          simp only [List.length_cons]
          omega
        · rw [List.filter_cons, List.filter_cons, if_neg hb]
          by_cases hqb : q b = true
          · rw [if_pos hqb]
            simp only [List.length_cons]
            omega
          · rw [if_neg hqb]
            exact hlt

theorem buildPath_none (prev : String → Option String) (n : Nat)
    (acc : List String) : buildPath prev n none acc = acc := by
  cases n <;> rfl

theorem buildPath_succ (prev : String → Option String) (n : Nat) (c : String)
    (acc : List String) :
    buildPath prev (n + 1) (some c) acc = buildPath prev n (prev c) (c :: acc) := rfl

/-- Following the `previous_nodes` chain from a finite-distance node with
enough fuel yields a walk from `start` to that node whose cost does not
exceed the node's distance. -/
theorem buildPath_spec (adj : Adj) (start : String) (t : DState)
    (tie : String → Nat)
    (hlink : ∀ v u, t.prev v = some u →
      ∃ w du dv, (v, w) ∈ adjGet adj u ∧ t.dist u = some du ∧ t.dist v = some dv ∧
        du + w ≤ dv ∧ (du < dv ∨ tie u < tie v))
    (hprevSome : ∀ v d, t.dist v = some d → v = start ∨ ∃ u, t.prev v = some u) :
    ∀ (n : Nat) (v : String) (dv : Nat), t.dist v = some dv →
      downCount adj t.dist tie v < n →
      ∀ acc, ∃ p c, buildPath t.prev n (some v) acc = p ++ acc ∧
        p.head? = some start ∧ p.getLast? = some v ∧ IsWalk adj p c ∧ c ≤ dv := by
  intro n
  induction n with
  | zero => intro v dv _ hc; omega
  | succ n ih =>
      intro v dv hdv hc acc
      rw [buildPath_succ]
      cases hp : t.prev v with
      | none =>
          have hvs : v = start := by
            rcases hprevSome v dv hdv with h | ⟨u, hu⟩
            · exact h
            · rw [hp] at hu
              exact absurd hu (by simp)
          rw [buildPath_none]
          exact ⟨[v], 0, rfl, by simp [hvs], rfl, IsWalk.single v, Nat.zero_le dv⟩
      | some u =>
          obtain ⟨w, du, dv', hedge, hdu, hdv2, hle, hstrict⟩ := hlink v u hp
          have hdveq : dv' = dv := by
            rw [hdv] at hdv2
            exact (Option.some.inj hdv2).symm
          rw [hdveq] at hle hstrict
          have hrank : rankLtB t.dist tie u v = true := by
            unfold rankLtB
            rw [hdu, hdv]
            rcases hstrict with h | h
            · simp [h]
            · rcases Nat.lt_or_ge du dv with h' | h'
              · simp [h']
              · have : du = dv := by omega
                simp [this, h]
          have hukey : u ∈ adjKeys adj := by
            have hne : adjGet adj u ≠ [] := by
              intro hnil
              rw [hnil] at hedge
              simp at hedge
            exact (adjHas_iff_mem_keys adj u).mp (adjHas_of_adjGet_ne_nil hne)
          have hdown : downCount adj t.dist tie u < downCount adj t.dist tie v := by
            unfold downCount
            refine filter_length_lt (adjKeys adj) _ _ ?_ u hukey hrank
              (rankLtB_irrefl t.dist tie u)
            intro x _ hx
            exact rankLtB_trans hx hrank
          obtain ⟨p', c', heq, hhead, hlast, hwalk, hcle⟩ :=
            ih u du hdu (by omega) (v :: acc)
          refine ⟨p' ++ [v], c' + w, ?_, ?_, by simp, isWalk_snoc hwalk hlast hedge, by omega⟩
          · rw [heq]
            simp
          · cases hp' : p' with
            | nil =>
                rw [hp'] at hhead
                simp at hhead
            | cons y ys =>
                rw [hp'] at hhead
                simpa using hhead

/-! ### Initial state invariants and the shortest-path claims -/

theorem initState_core (adj : Adj) (start : String) :
    DInvCore adj start (initState start) := by
  refine ⟨?_, rfl, ⟨fun _ => 0, ?_⟩, ?_, ?_, ?_⟩
  · show (if start = start then some 0 else none) = some 0
    rw [if_pos rfl]
  · intro v u h
    exact absurd h (by simp [initState])
  · intro v d h
    by_cases hv : v = start
    · rw [hv] at h ⊢
      have h0 : (initState start).dist start = some 0 := by
        show (if start = start then some 0 else none) = some 0
        rw [if_pos rfl]
      rw [h0] at h
      have : d = 0 := (Option.some.inj h).symm
      rw [this]
      exact ⟨[start], RWit.base⟩
    · exfalso
      have : (initState start).dist v = none := by
        show (if v = start then some 0 else none) = none
        rw [if_neg hv]
      rw [this] at h
      exact absurd h (by simp)
  · intro v d h
    by_cases hv : v = start
    · exact Or.inl hv
    · exfalso
      have : (initState start).dist v = none := by
        show (if v = start then some 0 else none) = none
        rw [if_neg hv]
      rw [this] at h
      exact absurd h (by simp)
  · intro v _
    rfl

theorem initState_pq (start : String) :
    ∀ e ∈ (initState start).pq, leD ((initState start).dist e.2) e.1 := by
  intro e he
  have he' : e = (0, start) := by simpa [initState] using he
  rw [he']
  refine ⟨0, ?_, le_refl 0⟩
  show (if start = start then some 0 else none) = some 0
  rw [if_pos rfl]

theorem initState_frontier (adj : Adj) (start : String) :
    ∀ x, FrontierAt adj (initState start) x := by
  intro x dx hdx
  by_cases hx : x = start
  · left
    refine ⟨0, ?_, Nat.zero_le dx⟩
    rw [hx]
    show ((0, start) : Nat × String) ∈ [(0, start)]
    simp
  · exfalso
    have : (initState start).dist x = none := by
      show (if x = start then some 0 else none) = none
      rw [if_neg hx]
    rw [this] at hdx
    exact absurd hdx (by simp)

/-- C3: for connected endpoints, `dijkstra` returns a path that starts at
the start node, ends at the end node, is a walk of the derived adjacency
whose cost is the returned total, and that total is minimal among all walks
between the two nodes. -/
theorem claim3_shortest_path (g : Store) (start endN : String)
    (hs : adjHas (build_adjacency_list g) start = true)
    (he : adjHas (build_adjacency_list g) endN = true)
    (hconn : ∃ p c, IsWalk (build_adjacency_list g) p c ∧
      p.head? = some start ∧ p.getLast? = some endN) :
    ∃ p c, dijkstra g start endN = (some p, some c) ∧
      p.head? = some start ∧ p.getLast? = some endN ∧
      IsWalk (build_adjacency_list g) p c ∧
      (∀ q c', IsWalk (build_adjacency_list g) q c' → q.head? = some start →
        q.getLast? = some endN → c ≤ c') := by
  have hadj := adjInv_build g
  obtain ⟨hcoreT, hopt⟩ := dloop_spec (build_adjacency_list g) start endN hadj
    (potential (build_adjacency_list g) (initState start) + 1) (initState start)
    (initState_core _ start) (initState_pq start) (initState_frontier _ start)
    (by omega)
  obtain ⟨p0, c0, hw0, hh0, hl0⟩ := hconn
  obtain ⟨de, hde, hdec0⟩ := hopt p0 c0 hw0 hh0 hl0
  obtain ⟨tie, hlink⟩ := hcoreT.links
  have hdc : downCount (build_adjacency_list g)
      (dloop (build_adjacency_list g) endN
        (potential (build_adjacency_list g) (initState start) + 1)
        (initState start)).dist tie endN <
      (adjKeys (build_adjacency_list g)).length + 1 := by
    unfold downCount
    have := List.length_filter_le
      (fun x => rankLtB (dloop (build_adjacency_list g) endN
        (potential (build_adjacency_list g) (initState start) + 1)
        (initState start)).dist tie x endN) (adjKeys (build_adjacency_list g))
    omega
  obtain ⟨p, c, heq, hhead, hlast, hwalk, hcle⟩ :=
    buildPath_spec (build_adjacency_list g) start _ tie hlink hcoreT.prevSome
      ((adjKeys (build_adjacency_list g)).length + 1) endN de hde hdc []
  rw [List.append_nil] at heq
  have hopt' : ∀ q c', IsWalk (build_adjacency_list g) q c' → q.head? = some start →
      q.getLast? = some endN → de ≤ c' := by
    intro q c' hq hh hl
    obtain ⟨de', hde', hlec⟩ := hopt q c' hq hh hl
    rw [hde] at hde'
    have : de' = de := (Option.some.inj hde').symm
    omega
  have hceq : c = de := le_antisymm hcle (hopt' p c hwalk hhead hlast)
  have hdij : dijkstra g start endN = (some p, some de) := by
    simp only [dijkstra]
    rw [hs, he]
    simp only [Bool.and_self, if_true]
    rw [heq, hhead, if_pos rfl, hde]
  refine ⟨p, de, hdij, hhead, hlast, ?_, hopt'⟩
  rw [← hceq]
  exact hwalk

/-- C6: `dijkstra` returns the `(None, float('inf'))` sentinel — modelled as
`(none, none)` — whenever an endpoint is absent from the derived adjacency
or no walk connects the endpoints; being a total function, it raises no
exception. -/
theorem claim6_sentinel (g : Store) (start endN : String)
    (h : adjHas (build_adjacency_list g) start = false ∨
      adjHas (build_adjacency_list g) endN = false ∨
      ¬ ∃ p c, IsWalk (build_adjacency_list g) p c ∧
        p.head? = some start ∧ p.getLast? = some endN) :
    dijkstra g start endN = (none, none) := by
  by_cases hs : adjHas (build_adjacency_list g) start = true
  · by_cases he : adjHas (build_adjacency_list g) endN = true
    · have hnw : ¬ ∃ p c, IsWalk (build_adjacency_list g) p c ∧
          p.head? = some start ∧ p.getLast? = some endN := by
        rcases h with h | h | h
        · rw [hs] at h
          exact absurd h (by simp)
        · rw [he] at h
          exact absurd h (by simp)
        · exact h
      have hadj := adjInv_build g
      obtain ⟨hcoreT, _⟩ := dloop_spec (build_adjacency_list g) start endN hadj
        (potential (build_adjacency_list g) (initState start) + 1) (initState start)
        (initState_core _ start) (initState_pq start) (initState_frontier _ start)
        (by omega)
      set t := dloop (build_adjacency_list g) endN
        (potential (build_adjacency_list g) (initState start) + 1)
        (initState start) with htdef
      cases hEnd : t.dist endN with
      | some de =>
          exfalso
          obtain ⟨pw, hw⟩ := hcoreT.wit endN de hEnd
          obtain ⟨hwalk, hhead, hlast⟩ := rwit_to_walk hw
          exact hnw ⟨pw.reverse, de, hwalk, hhead, hlast⟩
      | none =>
          have hprevnone : t.prev endN = none := hcoreT.noneNoPrev endN hEnd
          have hne : endN ≠ start := by
            intro heq
            rw [heq] at hEnd
            rw [hcoreT.startDist] at hEnd
            exact absurd hEnd (by simp)
          have hpath : buildPath t.prev
              ((adjKeys (build_adjacency_list g)).length + 1) (some endN) [] =
              [endN] := by
            rw [buildPath_succ, hprevnone, buildPath_none]
          simp only [dijkstra]
          rw [hs, he]
          simp only [Bool.and_self, if_true]
          rw [← htdef, hpath]
          simp only [List.head?_cons]
          rw [if_neg (fun hcontra => hne (Option.some.inj hcontra))]
    · have he' : adjHas (build_adjacency_list g) endN = false := by
        cases h0 : adjHas (build_adjacency_list g) endN
        · rfl
        · exact absurd h0 he
      simp only [dijkstra]
      rw [he']
      simp
  · have hs' : adjHas (build_adjacency_list g) start = false := by
      cases h0 : adjHas (build_adjacency_list g) start
      · rfl
      · exact absurd h0 hs
    simp only [dijkstra]
    rw [hs']
    simp

/-- C8: for a node with at least one live edge, the self query returns the
single-node path with total cost 0. -/
theorem claim8_self_path (g : Store) (X : String)
    (hs : adjHas (build_adjacency_list g) X = true) :
    dijkstra g X X = (some [X], some 0) := by
  have hq : (initState X).pq = (0, X) :: [] := rfl
  have hpm : popMin (0, X) ([] : List (Nat × String)) = ((0, X), []) := by
    unfold popMin minEntry
    simp
  have hd0 : (initState X).dist X = some 0 := by
    show (if X = X then some 0 else none) = some 0
    rw [if_pos rfl]
  have ht : dloop (build_adjacency_list g) X
      (potential (build_adjacency_list g) (initState X) + 1) (initState X) =
      { initState X with pq := [] } := by
    rw [dloop_succ_cons (build_adjacency_list g) X
      (potential (build_adjacency_list g) (initState X)) (initState X) (0, X) [] hq]
    rw [hpm]
    rw [if_neg (by rw [hd0]; simp [gtD])]
    rw [if_pos rfl]
  have hpath : buildPath ({ initState X with pq := [] } : DState).prev
      ((adjKeys (build_adjacency_list g)).length + 1) (some X) [] = [X] := by
    rw [buildPath_succ]
    have : ({ initState X with pq := [] } : DState).prev X = none := rfl
    rw [this, buildPath_none]
  simp only [dijkstra]
  rw [hs]
  simp only [Bool.and_self, if_true]
  rw [ht, hpath]
  simp only [List.head?_cons]
  rw [if_pos trivial, hd0]

/-- Concrete instantiation of C3 on the demo store: both endpoints are
present, a connecting walk exists, and `dijkstra` returns an optimal path. -/
theorem claim3_shortest_path_witness :
    (adjHas (build_adjacency_list demoStore) "N1" = true ∧
     adjHas (build_adjacency_list demoStore) "N3" = true) ∧
    ∃ p c, dijkstra demoStore "N1" "N3" = (some p, some c) ∧
      p.head? = some "N1" ∧ p.getLast? = some "N3" ∧
      IsWalk (build_adjacency_list demoStore) p c ∧
      (∀ q c', IsWalk (build_adjacency_list demoStore) q c' →
        q.head? = some "N1" → q.getLast? = some "N3" → c ≤ c') :=
  ⟨⟨by decide, by decide⟩,
    claim3_shortest_path demoStore "N1" "N3" (by decide) (by decide)
      ⟨["N1", "N2", "N3"], 40 + (60 + 0),
        IsWalk.cons (by decide) (IsWalk.cons (by decide) (IsWalk.single "N3")),
        by decide, by decide⟩⟩

/-- Concrete instantiation of C6 on the demo store: the end node `ZZ` has no
live edge, and the query returns the sentinel. -/
theorem claim6_sentinel_witness :
    adjHas (build_adjacency_list demoStore) "ZZ" = false ∧
    dijkstra demoStore "N1" "ZZ" = (none, none) :=
  ⟨by decide,
    claim6_sentinel demoStore "N1" "ZZ" (Or.inr (Or.inl (by decide)))⟩

/-- Concrete instantiation of C8 on the demo store: the self query at a node
with a live edge returns the single-node path at cost 0. -/
theorem claim8_self_path_witness :
    adjHas (build_adjacency_list demoStore) "N2" = true ∧
    dijkstra demoStore "N2" "N2" = (some ["N2"], some 0) :=
  ⟨by decide, claim8_self_path demoStore "N2" (by decide)⟩

end Center
